import Mathlib

/-!
Verification of the terminedia styled-text rendering engine
(`terminedia/text/style.py`, `terminedia/text/planes.py`, with context
defaults from `terminedia/contexts.py`).

The Python code is shallowly embedded: dictionaries become association
lists or functions, Python `V2` positions become pairs of integers,
fallible operations return `Except String`, and object identity of
retained `StyledSequence` instances is modelled by integer ids.
Python attribute stacks append at the end and scan from the end
(`stack.append`, `reversed(stack)`, `stack[-1]`); here a stack is a
`List` whose HEAD is the top, so append becomes cons and the scan from
the top walks the list front to back.
-/

namespace Terminedia

/-- 2-D integer vector, the embedding of terminedia `V2`
(`terminedia/utils/vector.py`, whose source is not under src/ but whose
tuple-of-two-numbers behaviour is fixed by every use site). -/
abbrev V2I := Int × Int

def v2add (a b : V2I) : V2I := (a.1 + b.1, a.2 + b.2)

/-- Provenance tag attached to each entry pushed on a context attribute
stack.  `StyledSequence._enter_iteration` seeds each stack with origin
the string "original"; `MarkMap.get_full` yields marks tagged "plane" or
"sequence" (src/terminedia/text/style.py lines 174-176, 482-485). -/
inductive Origin where
  | original
  | plane
  | sequence
deriving DecidableEq, Repr

/-- Attribute values carried by marks and contexts.  Colors are kept
symbolic (`Color` lives in `terminedia/utils/colors.py`, not under src/;
the tokenizer wraps the raw name).  `defaultFG`, `defaultBG` and
`transparentV` stand for the sentinel objects DEFAULT_FG, DEFAULT_BG and
TRANSPARENT of `terminedia.values` (module not under src/). -/
inductive Value where
  | strV (s : String)
  | colorV (s : String)
  | defaultFG
  | defaultBG
  | transparentV
  | dirV (d : V2I)
  | effectsV (n : Nat)
  | noneV
deriving DecidableEq, Repr

/-- Default context attribute values, from the `ContextVar` class
attributes of `Context` (src/terminedia/contexts.py lines 82-88).
`dir()` enumerates them alphabetically, which is the order
`Context.__iter__` yields them in. -/
def contextDefaults : List (String × Value) :=
  [ ("background", Value.defaultBG),
    ("char", Value.strV "█"),
    ("color", Value.defaultFG),
    ("direction", Value.dirV (1, 0)),
    ("effects", Value.effectsV 0),
    ("font", Value.strV ""),
    ("transformer", Value.noneV) ]

/-- The live context: a finite map attribute-name to value (Python sets
attributes dynamically with `setattr`, so an association list updated in
place or appended). -/
abbrev Ctx := List (String × Value)

def ctxLookup : Ctx → String → Option Value
  | [], _ => none
  | (k', v) :: rest, k => if k' = k then some v else ctxLookup rest k

/-- Python `setattr` on a dict-backed object: replace the value in place
when the key is present, append the pair otherwise.  Keys are unique in
every context built here, so replacing the first occurrence is the dict
update. -/
def ctxSet : Ctx → String → Value → Ctx
  | [], k, v => [(k, v)]
  | (k', v') :: rest, k, v =>
    if k' = k then (k, v) :: rest else (k', v') :: ctxSet rest k v

/-- `Context._update` / `_reset_context`: set every key of `data` on the
context, in order. -/
def ctxUpdateAll (c : Ctx) (data : Ctx) : Ctx :=
  data.foldl (fun acc p => ctxSet acc p.1 p.2) c

/-! ### The sparse character grid of a text plane
(src/terminedia/text/planes.py, class CharPlaneData and Text._char_at) -/
/-- Modelled from the spec: the EMPTY grapheme sentinel from
`terminedia.values` (module not under src/); the spec fixes only that the
grid's default cell value is this distinguished empty character. -/
def EMPTY : Char := '\x04'

/-- `CharPlaneData`: a dict subclass indexed by 2-D positions, with
bounds checks against the plane size on both reads and writes
(src/terminedia/text/planes.py lines 38-46). -/
structure CharPlaneData where
  width : Int
  height : Int
  grid : List (V2I × Char)
deriving Repr, DecidableEq

def gridLookup : List (V2I × Char) → V2I → Option Char
  | [], _ => none
  | (q, c) :: rest, p => if q = p then some c else gridLookup rest p

def gridInsert : List (V2I × Char) → V2I → Char → List (V2I × Char)
  | [], p, c => [(p, c)]
  | (q, c') :: rest, p, c =>
    if q = p then (p, c) :: rest else (q, c') :: gridInsert rest p c

def gridRemove : List (V2I × Char) → V2I → List (V2I × Char)
  | [], _ => []
  | (q, c) :: rest, p => if q = p then rest else (q, c) :: gridRemove rest p

def CharPlaneData.inBounds (d : CharPlaneData) (pos : V2I) : Prop :=
  0 ≤ pos.1 ∧ pos.1 < d.width ∧ 0 ≤ pos.2 ∧ pos.2 < d.height

instance (d : CharPlaneData) (pos : V2I) : Decidable (d.inBounds pos) := by
  unfold CharPlaneData.inBounds; infer_instance

/-- `CharPlaneData.__getitem__`: IndexError outside the plane rectangle,
otherwise `dict.get(pos, EMPTY)`. -/
def CharPlaneData.get (d : CharPlaneData) (pos : V2I) : Except String Char :=
  if d.inBounds pos then .ok ((gridLookup d.grid pos).getD EMPTY)
  else .error "IndexError: Text position out of range"

/-- `CharPlaneData.__setitem__`: IndexError outside the plane rectangle,
otherwise store the grapheme. -/
def CharPlaneData.set (d : CharPlaneData) (pos : V2I) (value : Char) :
    Except String CharPlaneData :=
  if d.inBounds pos then .ok { d with grid := gridInsert d.grid pos value }
  else .error "IndexError: Text position out of range"

/-- Deleting a cell uses the inherited `dict.__delitem__`: no bounds
check, KeyError when the key is absent. -/
def CharPlaneData.del (d : CharPlaneData) (pos : V2I) :
    Except String CharPlaneData :=
  if (gridLookup d.grid pos).isSome then
    .ok { d with grid := gridRemove d.grid pos }
  else .error "KeyError"

/-- The slice of `Text` state that `_char_at` touches: the plane grid and
the last-written-position bookkeeping.  The final `self.blit(pos)` call
forwards the cell to the external canvas (out-of-scope collaborator) and
does not change this state. -/
structure TextCellState where
  plane : CharPlaneData
  lastPos : Option V2I
deriving Repr, DecidableEq

/-- `Text._char_at` (src/terminedia/text/planes.py lines 267-275): try the
indexed write; an IndexError is swallowed and the write dropped;
otherwise record `last_pos` and blit. -/
def charAt (t : TextCellState) (char : Char) (pos : V2I) : TextCellState :=
  match t.plane.set pos char with
  | .error _ => t
  | .ok plane => { plane := plane, lastPos := some pos }

/-! ### Relative mark indices and coordinate spellings
(src/terminedia/text/style.py lines 328-368) -/
/-- Modelled from the spec: `terminedia.values.RelativeMarkIndex`
(module not under src/).  An axis value counted from the far edge of the
plane: `WIDTH_INDEX + off` evaluates to `size.x + off`, `HEIGHT_INDEX +
off` to `size.y + off`; adding `None` leaves the offset at zero, and
`WIDTH_INDEX - n` is the index with offset `-n`.  This is exactly the
behaviour style.py relies on in `_normalize_component` and
`get_relative_variants`. -/
structure RelIdx where
  isWidth : Bool
  off : Int
deriving DecidableEq, Repr

def RelIdx.evaluate (r : RelIdx) (size : V2I) : Int :=
  (if r.isWidth then size.1 else size.2) + r.off

def WIDTH_INDEX : RelIdx := ⟨true, 0⟩

def HEIGHT_INDEX : RelIdx := ⟨false, 0⟩

/-- One axis component of a user-facing MarkMap index: a plain integer,
Python `None`, or a `RelativeMarkIndex`. -/
inductive InComp where
  | iInt (n : Int)
  | iNone
  | iRel (r : RelIdx)
deriving DecidableEq, Repr

abbrev InKey := InComp × InComp

/-- `index_is_relative` (style.py line 328). -/
def compIsRelative : InComp → Bool
  | .iNone => true
  | .iRel _ => true
  | .iInt n => n < 0

def indexIsRelative (index : InKey) : Bool :=
  compIsRelative index.1 || compIsRelative index.2

/-- `_normalize_component` (style.py lines 331-336); `.inr` marks the
"is relative" flag of the source's boolean-and-value pair. -/
def normalizeComponent (comp : InComp) (isWidth : Bool) : Sum Int RelIdx :=
  match comp with
  | .iRel r => .inr r
  | .iNone => .inr ⟨isWidth, 0⟩
  | .iInt n => if n < 0 then .inr ⟨isWidth, n⟩ else .inl n

def sumToComp : Sum Int RelIdx → InComp
  | .inl n => .iInt n
  | .inr r => .iRel r

/-- The four coordinate spellings produced by `get_relative_variants`
(style.py lines 343-368): the concrete position, then the three
far-edge variants.  The source's `if pos[1] is None: pos[1] =
WIDTH_INDEX` quirk (WIDTH on the y axis) is kept as written. -/
structure Variants where
  v0 : V2I
  v1 : InKey
  v2 : InKey
  v3 : InKey
deriving DecidableEq, Repr

def getRelativeVariants (pos : InKey) (size : V2I) : Variants :=
  let p0 : Int :=
    match pos.1 with
    | .iNone => WIDTH_INDEX.evaluate size
    | .iRel r => r.evaluate size
    | .iInt n => if n < 0 then size.1 + n else n
  let p1 : Int :=
    match pos.2 with
    | .iNone => WIDTH_INDEX.evaluate size
    | .iRel r => r.evaluate size
    | .iInt n => if n < 0 then size.2 + n else n
  let px : RelIdx := ⟨true, -(size.1 - p0)⟩
  let py : RelIdx := ⟨false, -(size.2 - p1)⟩
  { v0 := (p0, p1),
    v1 := (.iRel px, .iInt p1),
    v2 := (.iInt p0, .iRel py),
    v3 := (.iRel px, .iRel py) }

/-! ### Marks and the MarkMap (style.py lines 371-624) -/
/-- A style/movement directive (class `Mark`, style.py lines 555-585).
`attributes`/`pop_attributes` are Python dicts or `None`; the empty list
stands for `None` (their truthiness agrees).  `moveto` components use
`none` for the RETAIN_POS sentinel. -/
structure Mark where
  attributes : List (String × Value) := []
  popAttributes : List String := []
  moveto : Option (Option Int × Option Int) := none
  rmoveto : Option V2I := none
deriving DecidableEq, Repr

/-- A MarkMap cell holds a single Mark or a list of Marks
(`Mark.merge` turns collisions into lists).  Both are encoded as a
`List Mark` — a singleton list is the bare-Mark case; `_force_iter` and
`_merge_as_lists` then become the identity and list concatenation, and
Python truthiness of a cell is non-emptiness of the list. -/
abbrev Entry := List Mark

/-- The index computed by a SpecialMark: a 1-D position in the rendered
stream or a 2-D plane position (style.py lines 402-407). -/
inductive SIdx where
  | seq (n : Int)
  | grid (p : V2I)
deriving DecidableEq, Repr

/-- `SpecialMark` (style.py lines 620-624): a Mark plus an `index`
function of the current tick and the rendered text's length. -/
structure SpecialMark where
  toMark : Mark
  index : Nat → Nat → SIdx

/-- The `mark_sequence` argument of a StyledSequence: integer keys to
mark cells, plus the optional "special" key holding SpecialMarks. -/
structure SeqData where
  items : List (Nat × Entry) := []
  special : List SpecialMark := []

def alLookup {α β : Type} [DecidableEq α] : List (α × β) → α → Option β
  | [], _ => none
  | (k, v) :: rest, a => if k = a then some v else alLookup rest a

/-- Python dict assignment: update in place when present (keeping the
key's position in insertion order), append otherwise. -/
def alSet {α β : Type} [DecidableEq α] : List (α × β) → α → β → List (α × β)
  | [], a, b => [(a, b)]
  | (k, v) :: rest, a, b =>
    if k = a then (a, b) :: rest else (k, v) :: alSet rest a b

/-- Python `dict.pop(key, default)`: the removed value (if any) and the
remaining pairs. -/
def alPop {α β : Type} [DecidableEq α] : List (α × β) → α → Option β × List (α × β)
  | [], _ => (none, [])
  | (k, v) :: rest, a =>
    if k = a then (some v, rest)
    else
      let r := alPop rest a
      (r.1, (k, v) :: r.2)

/-- `dict.setdefault(index, []).append(mark)`. -/
def alAppendAt {α : Type} [DecidableEq α] :
    List (α × List Mark) → α → Mark → List (α × List Mark)
  | [], a, mk => [(a, [mk])]
  | (k, l) :: rest, a, mk =>
    if k = a then (k, l ++ [mk]) :: rest else (k, l) :: alAppendAt rest a mk

/-- The per-text-plane store of marks (class `MarkMap`).  The attached
plane appears only through its current `size`, the single attribute the
embedded operations read from it. -/
structure MarkMap where
  data : List (V2I × Entry) := []
  relativeData : List (InKey × Entry) := []
  tick : Nat := 0
  seqData : SeqData := {}
  special : List SpecialMark := []
  concreteSpecial : List (SIdx × List Mark) := []
  textPlane : Option V2I := none
  isRenderingCopy : Bool := false
  parsedText : String := ""

/-- Exceptions a MarkMap lookup can raise: `KeyError` (caught by
`Mapping.get`) and `AttributeError` (reading `.size` of a missing
plane), which `get` does not catch. -/
inductive MErr where
  | keyError
  | attributeError (msg : String)
deriving DecidableEq, Repr

def inKeyAsV2 : InKey → Option V2I
  | (.iInt a, .iInt b) => some (a, b)
  | _ => none

/-- `MarkMap.__setitem__` for a positional index (style.py lines
489-501; the "special" tag and Rect cases are the separate
`markMapSetSpecial` and a cell-by-cell expansion). -/
def markMapSet (m : MarkMap) (index : InKey) (value : Entry) : MarkMap :=
  match normalizeComponent index.1 true, normalizeComponent index.2 false with
  | .inl a, .inl b => { m with data := alSet m.data (a, b) value }
  | c1, c2 =>
    { m with relativeData := alSet m.relativeData (sumToComp c1, sumToComp c2) value }

/-- `m["special"] = mark`: register a SpecialMark (set add). -/
def markMapSetSpecial (m : MarkMap) (value : SpecialMark) : MarkMap :=
  { m with special := m.special ++ [value] }

/-- The `self.data[index]` path of `__getitem__` (keys of `data` are
integer pairs, so any other index misses). -/
def markMapGetData (m : MarkMap) (index : InKey) : Except MErr Entry :=
  match inKeyAsV2 index with
  | some p =>
    match alLookup m.data p with
    | some e => .ok e
    | none => .error .keyError
  | none => .error .keyError

/-- The spelling-merging path of `__getitem__` (style.py lines 512-522):
for the first variant both stores are probed, then the three far-edge
spellings in `relative_data`; the merged list, empty meaning KeyError. -/
def markMapGetMerge (m : MarkMap) (index : InKey) (size : V2I) :
    Except MErr Entry :=
  let vs := getRelativeVariants index size
  let parts : List (Option Entry) :=
    [ alLookup m.data vs.v0,
      alLookup m.relativeData (.iInt vs.v0.1, .iInt vs.v0.2),
      alLookup m.relativeData vs.v1,
      alLookup m.relativeData vs.v2,
      alLookup m.relativeData vs.v3 ]
  let result := parts.foldl (fun acc o => acc ++ o.getD []) []
  if result = [] then .error .keyError else .ok result

/-- `MarkMap.__getitem__` (style.py lines 503-522).  On a rendering copy
a relative index is first converted to its concrete spelling (reading
`text_plane.size`, an AttributeError when the copy has no plane); a
rendering copy — or a relative index on a plane-less map — then reads
`data` directly, and otherwise the variants of the index are merged from
both stores (which also needs the plane's size). -/
def markMapGetItem (m : MarkMap) (index : InKey) : Except MErr Entry :=
  match m.textPlane with
  | none =>
    if m.isRenderingCopy && indexIsRelative index then
      .error (.attributeError "NoneType has no attribute size")
    else if m.isRenderingCopy || indexIsRelative index then
      markMapGetData m index
    else .error (.attributeError "NoneType has no attribute size")
  | some size =>
    if m.isRenderingCopy then
      markMapGetData m
        (if indexIsRelative index then
          (.iInt (getRelativeVariants index size).v0.1,
           .iInt (getRelativeVariants index size).v0.2)
         else index)
    else markMapGetMerge m index size

/-- `Mapping.get(index, [])`: `__getitem__` with KeyError mapped to the
default; other exceptions propagate. -/
def markMapGet (m : MarkMap) (index : InKey) : Except MErr Entry :=
  match markMapGetItem m index with
  | .ok e => .ok e
  | .error .keyError => .ok []
  | .error e => .error e

/-- `MarkMap.__delitem__` (style.py lines 525-532): pop the concrete
spelling from `data` and every spelling from `relative_data`; KeyError
when every pop came back falsy. -/
def markMapDelItem (m : MarkMap) (index : InKey) : Except MErr MarkMap :=
  match m.textPlane with
  | none => .error (.attributeError "NoneType has no attribute size")
  | some size =>
    let vs := getRelativeVariants index size
    let p0 := alPop m.data vs.v0
    let q0 := alPop m.relativeData (.iInt vs.v0.1, .iInt vs.v0.2)
    let q1 := alPop q0.2 vs.v1
    let q2 := alPop q1.2 vs.v2
    let q3 := alPop q2.2 vs.v3
    let truthy : Option Entry → Bool := fun o => !(o.getD []).isEmpty
    if truthy p0.1 || truthy q0.1 || truthy q1.1 || truthy q2.1 || truthy q3.1 then
      .ok { m with data := p0.2, relativeData := q3.2 }
    else .error .keyError

/-- `MarkMap.__iter__`: the keys of `data` followed by the keys of
`relative_data` (both the with-plane and the plane-less branch yield
exactly this sequence). -/
def markMapIterKeys (m : MarkMap) : List InKey :=
  m.data.map (fun p => ((InComp.iInt p.1.1, InComp.iInt p.1.2) : InKey))
    ++ m.relativeData.map Prod.fst

/-- `MarkMap.__len__`. -/
def markMapLen (m : MarkMap) : Nat :=
  m.data.length + m.relativeData.length

/-- `concretize_special_marks` (style.py lines 457-463): evaluate each
SpecialMark's index for this tick and text length. -/
def concretizeSpecialMarks (tick : Nat) (textLen : Nat)
    (special : List SpecialMark) : List (SIdx × List Mark) :=
  special.foldl (fun acc sm => alAppendAt acc (sm.index tick textLen) sm.toMark) []

/-- The data-store transformation of `concretize_relative_marks`
(style.py lines 465-474): resolve each relative mark against the current
plane size and merge it into `data` at the concrete position. -/
def concretizeRelData (rel : List (InKey × Entry)) (plane : Option V2I)
    (d : List (V2I × Entry)) : List (V2I × Entry) :=
  match plane with
  | none => d
  | some size =>
    rel.foldl
      (fun d p =>
        let c := (getRelativeVariants p.1 size).v0
        alSet d c (((alLookup d c).getD []) ++ p.2))
      d

/-- `MarkMap.prepare` (style.py lines 440-455), with the aliasing of the
shallow `copy(self)` made explicit: the pair tracks, for each dict-valued
field, whether parent and instance still share the underlying object, and
every in-place mutation writes through to the parent exactly when its
field is still shared.  Rebinding an attribute on the instance never
touches the parent. -/
structure PrepPair where
  parent : MarkMap
  inst : MarkMap
  dataShared : Bool
  relShared : Bool
  specialShared : Bool
  concreteShared : Bool

def PrepPair.mutSpecial (st : PrepPair) (f : List SpecialMark → List SpecialMark) :
    PrepPair :=
  { st with
    inst := { st.inst with special := f st.inst.special },
    parent :=
      if st.specialShared then { st.parent with special := f st.parent.special }
      else st.parent }

def PrepPair.mutData (st : PrepPair) (f : List (V2I × Entry) → List (V2I × Entry)) :
    PrepPair :=
  { st with
    inst := { st.inst with data := f st.inst.data },
    parent :=
      if st.dataShared then { st.parent with data := f st.parent.data }
      else st.parent }

def PrepPair.mutConcrete (st : PrepPair)
    (f : List (SIdx × List Mark) → List (SIdx × List Mark)) : PrepPair :=
  { st with
    inst := { st.inst with concreteSpecial := f st.inst.concreteSpecial },
    parent :=
      if st.concreteShared then
        { st.parent with concreteSpecial := f st.parent.concreteSpecial }
      else st.parent }

def prepareTracked (m : MarkMap) (seq : SeqData) (tick : Nat)
    (parsedText : String) : PrepPair :=
  -- instance = copy(self): a shallow copy, every field aliased
  let st : PrepPair :=
    { parent := m, inst := m,
      dataShared := true, relShared := true,
      specialShared := true, concreteShared := true }
  -- instance.tick / .seq_data / .context / .parsed_text: attribute rebinds
  let st := { st with inst :=
    { st.inst with tick := tick, seqData := seq, parsedText := parsedText } }
  -- instance.special = self.special.copy(): rebind to a fresh set
  let st := { st with
    inst := { st.inst with special := st.parent.special }, specialShared := false }
  -- instance.data = self.data.copy()
  let st := { st with
    inst := { st.inst with data := st.parent.data }, dataShared := false }
  -- if "special" in seq_data: instance.special.update(seq_data["special"])
  let st := st.mutSpecial (fun s => s ++ seq.special)
  -- concretize_special_marks: self._concrete_special = {} rebinds, ...
  let st := { st with
    inst := { st.inst with concreteSpecial := [] }, concreteShared := false }
  -- ... then the loop fills the fresh dict in place
  let st := st.mutConcrete
    (fun _ => concretizeSpecialMarks tick parsedText.length st.inst.special)
  -- concretize_relative_marks: reads relative_data (still shared), writes self.data
  let st := st.mutData (fun d => concretizeRelData st.inst.relativeData st.inst.textPlane d)
  { st with inst := { st.inst with isRenderingCopy := true } }

/-- The rendering copy a render pass works with. -/
def markMapPrepare (m : MarkMap) (seq : SeqData) (tick : Nat)
    (parsedText : String) : MarkMap :=
  (prepareTracked m seq tick parsedText).inst

/-- `MarkMap.get_full` (style.py lines 477-487): special marks resolved
at the plane position, special marks resolved at the stream index, plane
marks at the position, then sequence marks at the index; each tagged with
the origin string the source applies. -/
def getFull (m : MarkMap) (sequenceIndex : Nat) (pos : V2I) :
    Except MErr (List (Mark × Origin)) :=
  let specAtPos := (alLookup m.concreteSpecial (SIdx.grid pos)).getD []
  let specAtSeq := (alLookup m.concreteSpecial (SIdx.seq sequenceIndex)).getD []
  match markMapGet m (.iInt pos.1, .iInt pos.2) with
  | .error e => .error e
  | .ok planeMarks =>
    let seqMarks := (alLookup m.seqData.items sequenceIndex).getD []
    .ok (specAtPos.map (fun mk => (mk, Origin.plane))
      ++ specAtSeq.map (fun mk => (mk, Origin.sequence))
      ++ planeMarks.map (fun mk => (mk, Origin.plane))
      ++ seqMarks.map (fun mk => (mk, Origin.sequence)))

/-! ### The markup tokenizer (style.py lines 634-776)

`MLTokenizer._parser` is the regex `(?<![)[[^[].*?]` (brackets escaped in
the source): a token starts at a `[` that is not preceded by another `[`,
whose next character is not `[`, and runs minimally to the first
following `]`, with no newline between the second character and that
`]`.  `parse` removes every token from the raw text and records it with
the offset it holds in the stripped text. -/
def stripBrackets (s : String) : String :=
  let keep : Char → Bool := fun c => !(c == '[' || c == ']')
  let cs := s.toList.dropWhile (fun c => !keep c)
  String.mk ((cs.reverse.dropWhile (fun c => !keep c)).reverse)

/-! Character-list implementations of the Python string operations the
tokenizer uses (`in`, `split`, `strip`, `lower`, `upper`, `startswith`,
slicing).  They mirror the Python semantics on the inputs involved and,
unlike several built-in String primitives, compute by kernel
reduction. -/
def strContainsChar (c : Char) (s : String) : Bool :=
  s.toList.any (fun x => x = c)

def splitCharAux (sep : Char) : List Char → List Char → List String
  | [], acc => [String.mk acc.reverse]
  | c :: rest, acc =>
    if c = sep then String.mk acc.reverse :: splitCharAux sep rest []
    else splitCharAux sep rest (c :: acc)

/-- Python `s.split(sep)` for a one-character separator. -/
def splitOnChar (sep : Char) (s : String) : List String :=
  splitCharAux sep s.toList []

/-- Python `s.strip()`. -/
def strTrim (s : String) : String :=
  let cs := s.toList.dropWhile Char.isWhitespace
  String.mk ((cs.reverse.dropWhile Char.isWhitespace).reverse)

def strLower (s : String) : String := String.mk (s.toList.map Char.toLower)

def strUpper (s : String) : String := String.mk (s.toList.map Char.toUpper)

def strHead (s : String) : Option Char := s.toList.head?

/-- Python `s[1:]`. -/
def strDrop1 (s : String) : String := String.mk (s.toList.drop 1)

/-- Scan the characters following the token's first inner character for
the minimal closing bracket; fails on a newline or the end of input
(the regex dot does not match a newline). -/
def findTokenEnd : List Char → Option (List Char × List Char)
  | [] => none
  | ch :: rest =>
    if ch = ']' then some ([], rest)
    else if ch = '\n' then none
    else
      match findTokenEnd rest with
      | some (mid, rem) => some (ch :: mid, rem)
      | none => none

/-- The combined scan-and-strip of `re.sub` in `MLTokenizer.parse`:
returns the stripped text and the `(offset-in-stripped-text, token)`
pairs.  `prev` is the raw character before the current scan position
(for the negative lookbehind), `parsedRev` the stripped output so far.
The recursion is driven by a fuel counter so that it is structural and
computes by reduction; every step consumes at least one raw character,
so fuel `raw.length` always suffices and the zero-fuel branch (which
flushes the rest verbatim) is never taken from `mlScan`. -/
def mlScanAux (fuel : Nat) (raw : List Char) (prev : Option Char)
    (parsedRev : List Char) (toks : List (Nat × String)) :
    String × List (Nat × String) :=
  match fuel, raw with
  | _, [] => (String.mk parsedRev.reverse, toks.reverse)
  | 0, rest => (String.mk (parsedRev.reverse ++ rest), toks.reverse)
  | fuel + 1, ch :: rest =>
    if ch = '[' ∧ prev ≠ some '[' then
      match rest with
      | c :: rest2 =>
        if c = '[' then mlScanAux fuel rest (some ch) (ch :: parsedRev) toks
        else
          match findTokenEnd rest2 with
          | some (mid, rem) =>
            let token := String.mk ('[' :: c :: (mid ++ [']']))
            mlScanAux fuel rem (some ']') parsedRev
              ((parsedRev.length, stripBrackets token) :: toks)
          | none => mlScanAux fuel rest (some ch) (ch :: parsedRev) toks
      | [] => (String.mk (ch :: parsedRev).reverse, toks.reverse)
    else mlScanAux fuel rest (some ch) (ch :: parsedRev) toks

def mlScan (raw : String) : String × List (Nat × String) :=
  mlScanAux raw.toList.length raw.toList none [] []

/-- `MLTokenizer.__init__` / `update`: the tokenizer state is the
accumulated raw text (`update` imitates the hashlib interface). -/
structure MLTokenizer where
  rawText : String
deriving DecidableEq, Repr

def mlTokenizerInit (initial : String) : MLTokenizer :=
  { rawText := "" ++ initial }

def MLTokenizer.update (t : MLTokenizer) (text : String) : MLTokenizer :=
  { rawText := t.rawText ++ text }

/-! #### `_tokens_to_marks` (style.py lines 669-765) -/
/-- A tokenizer-time value: the raw string from the markup, one of the
sentinel objects substituted for the reserved words, or Python `None`. -/
inductive TokV where
  | s (v : String)
  | vv (v : Value)
  | noneT
deriving DecidableEq, Repr

/-- Modelled from the spec: the members of the `terminedia.effects` Effects
enum (module not under src/).  The spec names blink, underline, bold and
encircled; the enum values are distinct combinable flags and the claims
never depend on the numbers. -/
def effectsMembers (s : String) : Nat :=
  if s = "blink" then 1
  else if s = "underline" then 2
  else if s = "bold" then 4
  else if s = "encircled" then 8
  else 0

/-- `Directions` members (terminedia.py lines 82-87; `terminedia.values`
re-exports them, module not under src/). -/
def dirTable (s : String) : Option V2I :=
  if s = "UP" then some (0, -1)
  else if s = "RIGHT" then some (1, 0)
  else if s = "DOWN" then some (0, 1)
  else if s = "LEFT" then some (-1, 0)
  else none

def digitsToNat : List Char → Option Nat
  | [] => none
  | cs =>
    if cs.all Char.isDigit then
      some (cs.foldl (fun n c => n * 10 + (c.toNat - '0'.toNat)) 0)
    else none

/-- Python `int(str)` on an already-stripped token component. -/
def parseIntPy (s : String) : Option Int :=
  match s.toList with
  | '+' :: rest => (digitsToNat rest).map Int.ofNat
  | '-' :: rest => (digitsToNat rest).map (fun n => -(n : Int))
  | cs => (digitsToNat cs).map Int.ofNat

/-- `Color(value)` (class in `terminedia/utils/colors.py`, not under
src/).  Raw names are wrapped symbolically; the reserved sentinels pass
through — modelled from the spec, which fixes that `default` and
`transparent` color values parse and keep their reserved meaning. -/
def mkColor : TokV → Except String Value
  | .s v => .ok (.colorV v)
  | .vv v => .ok v
  | .noneT => .error "TypeError: Color(None)"

def mkEffects : TokV → Except String Value
  | .s v =>
    .ok (.effectsV ((splitOnChar '|' v).foldl
      (fun n w => n + effectsMembers (strTrim w)) 0))
  | .vv .transparentV => .ok .transparentV
  | _ => .error "AttributeError: value has no attribute split"

def mkDirection : TokV → Except String Value
  | .s v =>
    match dirTable (strUpper v) with
    | some d => .ok (.dirV d)
    | none => .error "AttributeError: Directions has no such member"
  | _ => .error "AttributeError: value has no attribute upper"

def rawTokV : TokV → Value
  | .s v => .strV v
  | .vv v => v
  | .noneT => .noneV

def tokvStartsParen : TokV → Bool
  | .s v => strHead v = some '('
  | _ => false

def attributeNames : List String :=
  ["effects", "color", "foreground", "background", "direction",
   "pretransformer", "char", "font"]

/-- The running state of the `_tokens_to_marks` loop. -/
structure TokState where
  markSequence : List (Nat × Entry) := []
  transformerStack : List (TokV × Nat × Nat) := []
  lastOffset : Int := -1
  offsetRepeatCounter : Nat := 0

/-- The `closing_mark.attributes["pretransformer"] += f" {spam}"` surgery
on an already-stored mark when a transformer tag closes without an
explicit span. -/
def injectSpam (seq : List (Nat × Entry)) (oOff : Nat) (oRep : Nat) (spam : Int) :
    Except String (List (Nat × Entry)) :=
  match alLookup seq oOff with
  | none => .error "KeyError: opening offset"
  | some entry =>
    -- a singleton entry is the bare-Mark case (lists come from Mark.merge
    -- and always have length at least two), so no indexing happens there
    let idx := if entry.length == 1 then 0 else oRep
    match entry.get? idx with
    | none => .error "IndexError: mark list"
    | some mk =>
      match alLookup mk.attributes "pretransformer" with
      | some (.strV s) =>
        let newAttrs :=
          alSet mk.attributes "pretransformer" (.strV (s ++ " " ++ toString spam))
        let mk2 := { mk with attributes := newAttrs }
        .ok (alSet seq oOff (entry.set idx mk2))
      | some _ => .error "TypeError: cannot concatenate"
      | none => .error "KeyError: pretransformer"

/-- One iteration of the `for offset, token in raw_tokens` loop. -/
def tokenStep (st : TokState) (offTok : Nat × String) : Except String TokState := do
  let (offset, token) := offTok
  let repeatCounter :=
    if (offset : Int) = st.lastOffset then st.offsetRepeatCounter + 1 else 0
  let st := { st with lastOffset := (offset : Int),
                      offsetRepeatCounter := repeatCounter }
  -- action/value extraction
  let (action, value) ←
    if strContainsChar ':' token then do
      let parts := (splitOnChar ':' token).map strTrim
      match parts with
      | [a, v] =>
        let a := strLower a
        let a := if a = "effect" then "effects" else a
        let v : TokV :=
          if ¬(a = "transformer" ∨ a = "font" ∨ a = "char") then .s (strLower v)
          else .s v
        pure (a, v)
      | _ => throw "ValueError: too many values to unpack"
    else
      let a := strTrim token
      if a = "left" ∨ a = "right" ∨ a = "up" ∨ a = "down" then
        pure ("direction", TokV.s a)
      else
        pure (a, TokV.noneT)
  let (startingTag, action) :=
    if strHead action = some '/' then (false, strDrop1 action) else (true, action)
  -- special color values
  let value :=
    if (action = "color" ∨ action = "foreground") ∧ value = .s "default" then
      TokV.vv .defaultFG
    else value
  let value :=
    if action = "background" ∧ value = .s "default" then TokV.vv .defaultBG
    else value
  let value :=
    if value = .s "transparent"
        ∧ (action = "effects" ∨ action = "color" ∨ action = "foreground"
            ∨ action = "background") then
      TokV.vv .transparentV
    else value
  -- the numeric-triplet branch calls ast.literal_eval, but style.py never
  -- imports ast: reaching it raises NameError.  (`value and
  -- value.startswith("(")` is only true for plain strings: None is falsy
  -- and, modelled from the spec, the reserved sentinels take the normal
  -- path since `[color: default]` is specified to parse.)
  if tokvStartsParen value
      ∧ (action = "color" ∨ action = "foreground" ∨ action = "background") then
    throw "NameError: name ast is not defined"
  -- transformer open/close bookkeeping
  let (action, st) ←
    if action = "transformer" then do
      let action := "pretransformer"
      if startingTag then
        pure (action, { st with transformerStack :=
          (value, offset, repeatCounter) :: st.transformerStack })
      else
        match st.transformerStack with
        | [] => throw "IndexError: pop from empty list"
        | (closingTr, oOff, oRep) :: stackRest =>
          match closingTr with
          | .s ct =>
            if strContainsChar ' ' ct then
              pure (action, { st with transformerStack := stackRest })
            else do
              let seq ← injectSpam st.markSequence oOff oRep ((offset : Int) - oOff)
              pure (action,
                { st with transformerStack := stackRest, markSequence := seq })
          | _ => throw "TypeError: argument of type NoneType is not iterable"
    else pure (action, st)
  -- attribute pushes and pops
  let (attributes, popAttributes) ←
    if action ∈ attributeNames then
      if startingTag then do
        let v ←
          if action = "color" ∨ action = "foreground" ∨ action = "background" then
            mkColor value
          else if action = "effects" then mkEffects value
          else if action = "direction" then mkDirection value
          else pure (rawTokV value)
        pure (([(action, v)] : List (String × Value)), ([] : List String))
      else
        pure (([] : List (String × Value)), [action])
    else
      pure (([] : List (String × Value)), ([] : List String))
  -- the teleport coordinates branch
  let (moveto, rmoveto) ←
    if strContainsChar ',' action ∧ attributes = [] ∧ popAttributes = [] then do
      let parts := (splitOnChar ',' action).map strTrim
      match parts with
      | [nx, ny] => do
        let nnx ← match parseIntPy nx with
          | some n => pure n
          | none => throw "ValueError: invalid literal for int"
        let nny ← match parseIntPy ny with
          | some n => pure n
          | none => throw "ValueError: invalid literal for int"
        let sx := strHead nx = some '+' ∨ strHead nx = some '-'
        let sy := strHead ny = some '+' ∨ strHead ny = some '-'
        if sx ∧ sy then
          pure ((none : Option (Option Int × Option Int)), some (nnx, nny))
        else if sx ∧ ¬sy then
          pure (some (none, some nny), some (nnx, 0))
        else if ¬sx ∧ sy then
          pure (some (some nnx, none), some (0, nny))
        else
          pure (some (some nnx, some nny), none)
      | _ => throw "ValueError: unpack"
    else
      pure ((none : Option (Option Int × Option Int)), (none : Option V2I))
  -- build the mark (unknown token actions just yield an empty mark) and
  -- merge it into the sequence
  let mk : Mark :=
    { attributes := attributes, popAttributes := popAttributes,
      moveto := moveto, rmoveto := rmoveto }
  let entry :=
    match alLookup st.markSequence offset with
    | some existing => existing ++ [mk]
    | none => [mk]
  pure { st with markSequence := alSet st.markSequence offset entry }

/-- `MLTokenizer.parse`: tokenize the raw text and build the mark
sequence. -/
def MLTokenizer.parse (t : MLTokenizer) :
    Except String (String × List (Nat × Entry)) := do
  let (parsedText, rawTokens) := mlScan t.rawText
  let st ← rawTokens.foldlM tokenStep ({} : TokState)
  pure (parsedText, st.markSequence)

/-! ### The rendering state machine (class StyledSequence, style.py
lines 80-302)

Python attribute stacks append with `stack.append`, scan with
`reversed(stack)` and read the top as `stack[-1]`; here the head of the
list is the top, so append is cons and the reversed scan walks the list
front to back.  The per-attribute `context_map` kept in
`self.locals.context_map` is a total function from attribute name to
stack; Python's `setdefault(key, [])` makes an absent key and an empty
stack indistinguishable, which the function model builds in. -/
abbrev Stack := List (Value × Origin)

abbrev Cm := String → Stack

def cmUpdate (cm : Cm) (k : String) (s : Stack) : Cm :=
  fun k' => if k' = k then s else cm k'

/-- The alias table `seq_attrs` of `_context_push`. -/
def seqAttrRename (k : String) : String :=
  if k = "transformer" then "transformers"
  else if k = "pretransformer" then "pretransformers"
  else k

def isSeqAttr (k : String) : Bool :=
  k = "transformer" ∨ k = "pretransformer"

/-- The pop loop of `_context_push` (style.py lines 199-202): walk the
stack from the top and remove the first entry whose recorded origin
equals the popping mark's origin; leave the stack unchanged when no
entry matches. -/
def removeFirstOrigin (o : Origin) : Stack → Stack
  | [] => []
  | e :: rest => if e.2 = o then rest else e :: removeFirstOrigin o rest

/-- `set.add` on the `changed` set, as an order-preserving dedup list
(the write-back below is per-key, so the set's iteration order is
immaterial). -/
def addChanged (changed : List String) (k : String) : List String :=
  if k ∈ changed then changed else changed ++ [k]

/-- One iteration of the pop loop of `_context_push` (style.py lines
193-202): rename the key, and on a non-empty stack mark it changed and
remove the first matching-origin entry. -/
def popStep (markOrigin : Origin) (acc : Cm × List String) (key : String) :
    Cm × List String :=
  let key := seqAttrRename key
  let stack := acc.1 key
  if stack = [] then acc
  else (cmUpdate acc.1 key (removeFirstOrigin markOrigin stack),
        addChanged acc.2 key)

/-- One iteration of the push loop for a scalar attribute (style.py
lines 224-227): push the raw value with this mark's origin and mark the
key changed. -/
def pushStepCore (markOrigin : Origin) (acc : Cm × List String)
    (kv : String × Value) : Cm × List String :=
  (cmUpdate acc.1 kv.1 ((kv.2, markOrigin) :: acc.1 kv.1), addChanged acc.2 kv.1)

/-- The push loop including the transformer-staging branch (style.py
lines 205-223), which copies the context's transformer container and
resolves names through `text_plane.transformers_map`; both live in
modules outside src/ (`terminedia.transformers`), and with a fresh
context the branch's `getattr(self.context, "transformers")` raises, so
it is embedded as an error. -/
def pushStepM (markOrigin : Origin) (acc : Cm × List String)
    (kv : String × Value) : Except String (Cm × List String) :=
  if isSeqAttr kv.1 then
    throw "AttributeError: transformer staging needs terminedia.transformers"
  else pure (pushStepCore markOrigin acc kv)

/-- The write-back loop of `_context_push` (style.py lines 229-231): for
every changed key with a non-empty stack, set the live context attribute
to the stack top. -/
def writeBack (ctx : Ctx) (cm : Cm) (changed : List String) : Ctx :=
  changed.foldl
    (fun c k =>
      match cm k with
      | [] => c
      | top :: _ => ctxSet c k top.1)
    ctx

/-- `StyledSequence._context_push` (style.py lines 187-231): pops, then
pushes, then the write-back of new stack tops into the live Context. -/
def contextPush (attributes : List (String × Value)) (popAttributes : List String)
    (markOrigin : Origin) (ctx : Ctx) (cm : Cm) : Except String (Ctx × Cm) := do
  let popped := popAttributes.foldl (popStep markOrigin) (cm, [])
  let pushed ← attributes.foldlM (pushStepM markOrigin) popped
  pure (writeBack ctx pushed.1 pushed.2, pushed.1)

/-- The pure value of `_context_push` on the scalar paths (the only ones
`contextPush` completes without raising). -/
def contextPushCore (attributes : List (String × Value))
    (popAttributes : List String) (markOrigin : Origin) (ctx : Ctx) (cm : Cm) :
    Ctx × Cm :=
  let popped := popAttributes.foldl (popStep markOrigin) (cm, [])
  let pushed := attributes.foldl (pushStepCore markOrigin) popped
  (writeBack ctx pushed.1 pushed.2, pushed.1)

def merrToString : MErr → String
  | .keyError => "KeyError"
  | .attributeError msg => msg

/-- The immutable per-render data of a StyledSequence: the prepared
rendering MarkMap, the text length, the starting point and
`_parent_context_data`. -/
structure SStatic where
  marks : MarkMap
  textLen : Nat
  start : V2I
  parentData : Ctx

/-- The mutable per-render state: live context, per-attribute stacks,
`_last_index_processed` and the cursor. -/
structure SState where
  ctx : Ctx
  cm : Cm
  lastIndex : Option Nat
  pos : V2I

/-- Application of one fetched `(mark, origin)` pair inside
`_process_to`'s loop (style.py lines 142-154).  Setting
`mark_here.context` / `mark_here.pos` attaches transient fields to the
Mark object and has no effect on the plain (non-property) marks
modelled here. -/
def applyMark (ctx : Ctx) (cm : Cm) (pos : V2I) (mo : Mark × Origin) :
    Except String (Ctx × Cm × V2I) := do
  let (mark, origin) := mo
  let (ctx, cm) ←
    if mark.attributes ≠ [] ∨ mark.popAttributes ≠ [] then
      contextPush mark.attributes mark.popAttributes origin ctx cm
    else pure (ctx, cm)
  let pos :=
    match mark.moveto with
    | none => pos
    | some (mx, my) => ((mx.getD pos.1 : Int), (my.getD pos.2 : Int))
  let pos :=
    match mark.rmoveto with
    | none => pos
    | some d => v2add pos d
  pure (ctx, cm, pos)

/-- The mark loop of `_process_to` at one index. -/
def applyMarksAt (static : SStatic) (ctx : Ctx) (cm : Cm) (pos : V2I)
    (index : Nat) : Except String (Ctx × Cm × V2I) := do
  match getFull static.marks index pos with
  | .error e => throw (merrToString e)
  | .ok ms => ms.foldlM (fun acc mo => applyMark acc.1 acc.2.1 acc.2.2 mo) (ctx, cm, pos)

/-- The incremental body of `_process_to`: reset the cursor when this is
the very first index, apply the marks at `i`, record `i` as the last
processed index.  Callers only reach this in the source's two
incremental situations (`last is None and index == 0`, or
`index == last + 1`). -/
def processIncr (static : SStatic) (st : SState) (i : Nat) :
    Except String SState := do
  let pos0 := if st.lastIndex = none then static.start else st.pos
  let (ctx, cm, pos) ← applyMarksAt static st.ctx st.cm pos0 i
  pure { ctx := ctx, cm := cm, pos := pos, lastIndex := some i }

/-- `_reprocess_from_start` (style.py lines 158-170): `_reset_context`
restores the live context from `_parent_context_data` (the per-attribute
stacks in `locals.context_map` are NOT reset), the last processed index
is cleared, and `_process_to` is replayed for 0..index — each inner call
takes the incremental branch, so the `_sanity_counter` reentrancy guard
(which only fires when a replay triggers another replay) stays at one
for the plain marks modelled here. -/
def reprocessFromStart (static : SStatic) (st : SState) (index : Nat) :
    Except String SState := do
  let st : SState :=
    { st with ctx := ctxUpdateAll st.ctx static.parentData, lastIndex := none }
  (List.range (index + 1)).foldlM (fun s j => processIncr static s j) st

/-- `StyledSequence._process_to` (style.py lines 132-156). -/
def processTo (static : SStatic) (st : SState) (index : Nat) :
    Except String SState :=
  match st.lastIndex with
  | none =>
    if index = 0 then processIncr static st index
    else reprocessFromStart static st index
  | some l =>
    if index = l + 1 then processIncr static st index
    else reprocessFromStart static st index

/-- `_enter_iteration` (style.py lines 173-184): seed a fresh
context-map stack for every attribute of the live context, with origin
"original", and prepare the rendering MarkMap. -/
def cmInit (ctx : Ctx) : Cm := fun k =>
  match ctxLookup ctx k with
  | some v => [(v, Origin.original)]
  | none => []

/-- The plane argument of an iteration: the owning plane's MarkMap and
tick counter, when there is one.  A plane-less StyledSequence prepares a
fresh empty MarkMap at the global tick (`get_current_tick()` is 0 when no
root screen has ever ticked, utils/__init__.py lines 52-59). -/
def enterIterationMarks (planeMarks : Option (MarkMap × Nat)) (markSeq : SeqData)
    (text : String) : MarkMap :=
  match planeMarks with
  | some (m, ticks) => markMapPrepare m markSeq ticks text
  | none => markMapPrepare {} markSeq 0 text

/-- `_get_position_at` (style.py lines 244-249): the position yielded for
the current character, after which the cursor advances by the current
direction.  The live direction attribute always holds a vector: the
`ContextVar` descriptor coerces every assigned value with `V2(...)`. -/
def getPositionAt (static : SStatic) (st : SState) (index : Nat) :
    Except String (V2I × SState) := do
  let st ← if st.lastIndex ≠ some index then processTo static st index else pure st
  let dir ← match ctxLookup st.ctx "direction" with
    | some (.dirV d) => pure d
    | _ => throw "TypeError: direction does not hold a V2"
  pure (st.pos, { st with pos := v2add st.pos dir })

/-- `StyledSequence.__iter__` (style.py lines 251-271), yielding
`(char, context, position)` triples.  The context component of each
triple is the snapshot of the live context at yield time (Python yields
the mutating object itself; observing it means snapshotting here).  The
`with self.context()` manager only affects post-iteration state, and the
transformer-progress bookkeeping is vacuous because `_active_transformers`
stays empty on the scalar-attribute paths modelled here. -/
def iterateStyled (text : String) (markSeq : SeqData)
    (planeMarks : Option (MarkMap × Nat)) (ctx0 : Ctx) (start : V2I)
    (parentData : Ctx) : Except String (List (Char × Ctx × V2I)) := do
  let prepared := enterIterationMarks planeMarks markSeq text
  let static : SStatic :=
    { marks := prepared, textLen := text.length, start := start,
      parentData := parentData }
  let st0 : SState := { ctx := ctx0, cm := cmInit ctx0, lastIndex := none, pos := start }
  let result ←
    text.toList.enum.foldlM
      (fun (acc : List (Char × Ctx × V2I) × SState) p => do
        let (index, char) := p
        let st ← processTo static acc.2 index
        let (pos, st) ← getPositionAt static st index
        pure (acc.1 ++ [(char, st.ctx, pos)], st))
      ([], st0)
  pure result.1

/-- The fresh context a plane-less StyledSequence starts from
(`self.context = Context()` in `__init__`), and the
`_parent_context_data` captured by `_prepare_context` on the render path:
a fresh `Context()` updated with every attribute of the owner's
context. -/
def freshContext : Ctx := contextDefaults

def prepareContextData (ownerCtx : Ctx) : Ctx :=
  ctxUpdateAll freshContext ownerCtx

/-! ### TextPlane retention of rendered sequences
(src/terminedia/text/planes.py lines 352-384) -/
/-- A StyledSequence as the owning plane sees it: its Python identity
(`writtings_index` is a set keyed by object identity) and whether its
mark sequence carries SpecialMarks. -/
structure StyledRef where
  id : Nat
  hasSpecialMarks : Bool
deriving DecidableEq, Repr

/-- The retention slice of a concretized `Text` plane: the tick counter
and the `writtings` list with its identity index. -/
structure WritState where
  ticks : Nat := 0
  writtings : List StyledRef := []
  writtingsIndex : List StyledRef := []
deriving DecidableEq, Repr

/-- `Text.render_styled_sequence` (planes.py lines 372-384): sequences
not yet indexed are appended to `writtings`; `styled.render()` then runs
in every case. -/
def renderStyledSequence (t : WritState) (styled : StyledRef) : WritState :=
  if styled ∈ t.writtingsIndex then t
  else
    { t with
      writtingsIndex := t.writtingsIndex ++ [styled],
      writtings := t.writtings ++ [styled] }

/-- `Text.update` (planes.py lines 352-359): bump the tick counter and
re-render every retained writing; the SpecialMark filter in its body is
commented out in the source.  Returns the new state and the list of
sequences on which `render_styled_sequence` is re-invoked, in order. -/
def planeUpdate (t : WritState) : WritState × List StyledRef :=
  ({ t with ticks := t.ticks + 1 }, t.writtings)

def c7plane : CharPlaneData := { width := 3, height := 2, grid := [] }

/-- **C6 counterexample**: a SpecialMark with `index(tick, len) = tick %
len` on a text of length 2 concretizes to the SAME position for the
distinct ticks 0 and 2 — refuting "for every two distinct ticks the
positions differ". -/
def c6mark : SpecialMark :=
  { toMark := {}, index := fun t l => .seq ((t % l : Nat) : Int) }

/-- **C8 counterexample**: in a 2x1 plane, the logical coordinate (1,0)
stored under both its plain spelling and its from-the-far-edge spelling
is yielded TWICE by MarkMap iteration (`__iter__` chains the keys of
`data` and of `relative_data` without merging spellings), refuting
"iteration yields such an ambiguous coordinate as one logical entry". -/
def c8m1 : Mark := { attributes := [("color", .colorV "a")] }

def c8m2 : Mark := { attributes := [("color", .colorV "b")] }

def c8map : MarkMap :=
  markMapSet (markMapSet { textPlane := some (2, 1) } (.iInt 1, .iInt 0) [c8m1])
    (.iInt (-1), .iInt 0) [c8m2]

/-! #### C1: independent-origin popping -/
def c1Source : String := "[color:blue] X [background:red] Y [/color] Z [/background]"

/-- The spec's crossing-tags example rendered plane-less from a fresh
context, as `(char, context-snapshot, position)` triples. -/
def c1ExampleRun : Except String (List (Char × Ctx × V2I)) :=
  match (mlTokenizerInit c1Source).parse with
  | .error e => .error e
  | .ok (text, items) =>
    iterateStyled text { items := items } none freshContext (0, 0) freshContext

/-! ### C3: the idempotence analysis of `_process_to`

The analysis factors the Except-valued `processTo` through pure "core"
functions (possible exactly when every fetched mark is scalar and the
prepared map has a plane, so `get_full` is total), then projects the
context-map evolution onto independent per-attribute stack runs. -/
/-- The value of a total `get_full` (with an attached plane it never
raises; a KeyError is already absorbed into the empty default). -/
def getFullT (m : MarkMap) (sequenceIndex : Nat) (pos : V2I) :
    List (Mark × Origin) :=
  match getFull m sequenceIndex pos with
  | .ok l => l
  | .error _ => []

/-- Marks whose application stays on the scalar (non-transformer) path
of `_context_push`, with the pop keys unique after renaming (Python dict
keys are unique; renaming can only merge "transformer(s)" pairs, which
the transformer-free path excludes anyway). -/
def ScalarMark (mk : Mark) : Prop :=
  (∀ kv ∈ mk.attributes, isSeqAttr kv.1 = false)
    ∧ (mk.popAttributes.map seqAttrRename).Nodup

/-- The cursor movement a single mark performs (the moveto/rmoveto part
of `_process_to`'s loop). -/
def markMove (mark : Mark) (pos : V2I) : V2I :=
  let pos :=
    match mark.moveto with
    | none => pos
    | some (mx, my) => ((mx.getD pos.1 : Int), (my.getD pos.2 : Int))
  match mark.rmoveto with
  | none => pos
  | some d => v2add pos d

def applyMarkCore (s : Ctx × Cm × V2I) (mo : Mark × Origin) : Ctx × Cm × V2I :=
  let cc :=
    if mo.1.attributes ≠ [] ∨ mo.1.popAttributes ≠ [] then
      contextPushCore mo.1.attributes mo.1.popAttributes mo.2 s.1 s.2.1
    else (s.1, s.2.1)
  (cc.1, cc.2, markMove mo.1 s.2.2)

/-- The marks fetched at one text index with the cursor at `p`. -/
def stepEvs (static : SStatic) (p : V2I) (j : Nat) : List (Mark × Origin) :=
  getFullT static.marks j p

/-- One index of the pure replay: fold the fetched marks over the state. -/
def coreStep (static : SStatic) (s : Ctx × Cm × V2I) (j : Nat) : Ctx × Cm × V2I :=
  (stepEvs static s.2.2 j).foldl applyMarkCore s

/-- The pure value of a full replay (`_process_to` for 0..i) starting
the cursor at the sequence start. -/
def replayCore (static : SStatic) (c : Ctx) (cm : Cm) (i : Nat) :
    Ctx × Cm × V2I :=
  (List.range (i + 1)).foldl (coreStep static) (c, cm, static.start)

/-- The cursor after the marks of one index; independent of the context
and of the attribute stacks. -/
def posStep (static : SStatic) (p : V2I) (j : Nat) : V2I :=
  (stepEvs static p j).foldl (fun q mo => markMove mo.1 q) p

/-- The cursor after a full replay. -/
def replayPos (static : SStatic) (i : Nat) : V2I :=
  (List.range (i + 1)).foldl (posStep static) static.start

/-- The flat list of `(mark, origin)` events a full replay processes, in
order; it is determined by the cursor trace alone, so consecutive
replays process identical event lists. -/
def replayEvents (static : SStatic) (i : Nat) : List (Mark × Origin) :=
  ((List.range (i + 1)).foldl
    (fun (a : V2I × List (Mark × Origin)) j =>
      (posStep static a.1 j, a.2 ++ stepEvs static a.1 j))
    (static.start, [])).2

/-- The context/stack part of one mark application (the cursor never
feeds back into it). -/
def ctxCmStep (s : Ctx × Cm) (mo : Mark × Origin) : Ctx × Cm :=
  if mo.1.attributes ≠ [] ∨ mo.1.popAttributes ≠ [] then
    contextPushCore mo.1.attributes mo.1.popAttributes mo.2 s.1 s.2
  else s

def ctxCmRun (evs : List (Mark × Origin)) (s : Ctx × Cm) : Ctx × Cm :=
  evs.foldl ctxCmStep s

/-- The values a mark pushes onto the stack of attribute `k`, in push
order. -/
def evPushes (attrs : List (String × Value)) (k : String) : List Value :=
  (attrs.filter (fun kv => kv.1 == k)).map Prod.snd

/-- The projection of one mark event onto a single attribute key. -/
structure KEv where
  pop : Bool
  pushes : List Value
  orig : Origin

def evK (mo : Mark × Origin) (k : String) : KEv :=
  { pop := (mo.1.popAttributes.map seqAttrRename).contains k,
    pushes := evPushes mo.1.attributes k,
    orig := mo.2 }

/-- Pushing a run of values with one origin onto a stack. -/
def pushesFold (o : Origin) (vs : List Value) (st : Stack) : Stack :=
  vs.foldl (fun s v => (v, o) :: s) st

/-- The per-key stack evolution of one event.  A pop acts on the empty
stack as the identity (`popStep` skips empty stacks, and
`removeFirstOrigin` fixes `[]` anyway), so no emptiness guard is
needed. -/
def kStack1 (st : Stack) (e : KEv) : Stack :=
  pushesFold e.orig e.pushes (if e.pop then removeFirstOrigin e.orig st else st)

/-- The per-key machine: the stack paired with the live context value of
the key (`none` meaning the attribute has not been written since the
start of the run). -/
def kStep (sw : Stack × Option Value) (e : KEv) : Stack × Option Value :=
  let st2 := kStack1 sw.1 e
  let touched := (e.pop && !sw.1.isEmpty) || !e.pushes.isEmpty
  (st2,
   if touched then
     match st2 with
     | [] => sw.2
     | t :: _ => some t.1
   else sw.2)

def kRun (es : List KEv) (sw : Stack × Option Value) : Stack × Option Value :=
  es.foldl kStep sw

/-- Left-biased choice on the optional last-written value. -/
def wOr (a b : Option Value) : Option Value :=
  match a with
  | some v => some v
  | none => b

/-- The value the write-backs of `ctxUpdateAll` leave for a key: the last
occurrence in the update data wins. -/
def lastVal : Ctx → String → Option Value
  | [], _ => none
  | kv :: rest, k =>
    match lastVal rest k with
    | some v => some v
    | none => if kv.1 = k then some kv.2 else none

/-- The write one event contributes, viewed in isolation. -/
def kDelta (st : Stack) (e : KEv) : Option Value :=
  if (e.pop && !st.isEmpty) || !e.pushes.isEmpty then
    (kStack1 st e).head?.map Prod.fst
  else none

/-- The state `__iter__` starts from on the render path:
`_prepare_context` rebinds a fresh Context and `_reset_context` writes
every captured parent attribute onto it; `_enter_iteration` seeds the
per-attribute stacks with the live values at origin "original". -/
def freshIterState (static : SStatic) : SState :=
  let ctx0 := ctxUpdateAll freshContext static.parentData
  { ctx := ctx0, cm := cmInit ctx0, lastIndex := none, pos := static.start }

/-- The state a full replay for 0..i leaves, as a function of the
context/stacks it starts from. -/
def replayState (static : SStatic) (c : Ctx) (cm : Cm) (i : Nat) : SState :=
  { ctx := (replayCore static c cm i).1,
    cm := (replayCore static c cm i).2.1,
    lastIndex := some i,
    pos := (replayCore static c cm i).2.2 }

/-- A `[color:…]`-style mark and its closing counterpart, and the states
probing the original C3 claim: process indices 0, 1, 2 forward, then
call `_process_to(0)` twice in a row and read the live color after each
call. -/
def c3popColor : Mark := { popAttributes := ["color"] }

def c3pushColor (s : String) : Mark :=
  { attributes := [("color", Value.colorV s)] }

def c3Static : SStatic :=
  { marks := markMapPrepare { textPlane := some (10, 10) }
      { items := [(0, [c3popColor]), (1, [c3pushColor "v"]),
                  (2, [c3pushColor "w"])] } 0 "abc",
    textLen := 3, start := (0, 0),
    parentData := prepareContextData freshContext }

def c3Probe : Except String (Option Value × Option Value) := do
  let s1 ← processTo c3Static (freshIterState c3Static) 0
  let s2 ← processTo c3Static s1 1
  let s3 ← processTo c3Static s2 2
  let s4 ← processTo c3Static s3 0
  let s5 ← processTo c3Static s4 0
  pure (ctxLookup s4.ctx "color", ctxLookup s5.ctx "color")

/-- A small prepared sequence on a 4×4 plane for instantiating the
amended C3 statement. -/
def c3wStatic : SStatic :=
  { marks := markMapPrepare { textPlane := some (4, 4) } {} 0 "ab",
    textLen := 2, start := (0, 0),
    parentData := prepareContextData freshContext }

@[simp] theorem ctxLookup_nil (k : String) : ctxLookup [] k = none := rfl

theorem ctxLookup_set (c : Ctx) (k : String) (v : Value) :
    ctxLookup (ctxSet c k v) k = some v := by
  induction c with
  | nil => simp [ctxSet, ctxLookup]
  | cons hd tl ih =>
    obtain ⟨k', v'⟩ := hd
    by_cases h : k' = k <;> simp [ctxSet, ctxLookup, h, ih]

theorem ctxLookup_set_ne (c : Ctx) (k k' : String) (v : Value) (h : k' ≠ k) :
    ctxLookup (ctxSet c k v) k' = ctxLookup c k' := by
  have hk : k ≠ k' := fun hh => h hh.symm
  induction c with
  | nil => simp [ctxSet, ctxLookup, hk]
  | cons hd tl ih =>
    obtain ⟨k0, v0⟩ := hd
    by_cases h0 : k0 = k
    · subst h0
      have : k0 ≠ k' := hk
      simp [ctxSet, ctxLookup, this]
    · by_cases h1 : k0 = k' <;> simp [ctxSet, ctxLookup, h0, h1, h, ih]

theorem findTokenEnd_length {l mid rem : List Char}
    (h : findTokenEnd l = some (mid, rem)) : rem.length < l.length := by
  induction l generalizing mid rem with
  | nil => simp [findTokenEnd] at h
  | cons ch rest ih =>
    by_cases h1 : ch = ']'
    · simp [findTokenEnd, h1] at h
      simp [h.2]
    · by_cases h2 : ch = '\n'
      · simp [findTokenEnd, h1, h2] at h
      · simp only [findTokenEnd, if_neg h1, if_neg h2] at h
        cases hrec : findTokenEnd rest with
        | none => rw [hrec] at h; simp at h
        | some p =>
          obtain ⟨m0, r0⟩ := p
          rw [hrec] at h
          simp at h
          have := ih hrec
          simp [← h.2]
          omega

/-! ### Support lemmas -/
theorem gridLookup_insert (g : List (V2I × Char)) (p : V2I) (c : Char) :
    gridLookup (gridInsert g p c) p = some c := by
  induction g with
  | nil => simp [gridInsert, gridLookup]
  | cons hd tl ih =>
    obtain ⟨q, c'⟩ := hd
    by_cases h : q = p <;> simp [gridInsert, gridLookup, h, ih]

theorem gridLookup_remove_self (g : List (V2I × Char)) (p : V2I)
    (h : (g.map Prod.fst).Nodup) : gridLookup (gridRemove g p) p = none := by
  induction g with
  | nil => simp [gridRemove, gridLookup]
  | cons hd tl ih =>
    obtain ⟨q, c⟩ := hd
    simp only [List.map_cons, List.nodup_cons] at h
    by_cases hq : q = p
    · subst hq
      simp only [gridRemove, if_pos rfl]
      -- q no longer occurs among tl's keys
      clear ih
      induction tl with
      | nil => simp [gridLookup]
      | cons hd2 tl2 ih2 =>
        obtain ⟨q2, c2⟩ := hd2
        simp only [List.map_cons, List.mem_cons, not_or] at h
        have hq2 : q2 ≠ q := fun hh => h.1.1 hh.symm
        simp only [gridLookup, if_neg hq2]
        exact ih2 ⟨h.1.2, (List.nodup_cons.mp h.2).2⟩
    · simp only [gridRemove, if_neg hq, gridLookup, if_neg hq]
      exact ih h.2

/-! ### Claim theorems -/
/-- **C7** (error_handling): a direct indexed write at a position outside
`[0,width) x [0,height)` raises the bounds IndexError, while the same
position reached through the markup rendering write path `_char_at` is
silently dropped (the state is unchanged and no error propagates); an
in-bounds write is stored and readable back. -/
theorem C7_plane_bounds_direct_raises_charAt_drops
    (t : TextCellState) (p : V2I) (c : Char) :
    (¬ t.plane.inBounds p →
        t.plane.set p c = .error "IndexError: Text position out of range"
          ∧ charAt t c p = t) ∧
    (t.plane.inBounds p →
        t.plane.set p c = .ok { t.plane with grid := gridInsert t.plane.grid p c }
          ∧ (charAt t c p).plane.get p = .ok c
          ∧ (charAt t c p).lastPos = some p) := by
  constructor
  · intro h
    refine ⟨by simp [CharPlaneData.set, h], ?_⟩
    simp [charAt, CharPlaneData.set, h]
  · intro h
    refine ⟨by simp [CharPlaneData.set, h], ?_, ?_⟩
    · simp only [charAt, CharPlaneData.set, if_pos h]
      have hb : CharPlaneData.inBounds
          { t.plane with grid := gridInsert t.plane.grid p c } p := h
      simp [CharPlaneData.get, hb, gridLookup_insert]
    · simp [charAt, CharPlaneData.set, if_pos h]

theorem C7_witness :
    charAt ⟨c7plane, none⟩ 'x' (5, 0) = ⟨c7plane, none⟩ ∧
    (charAt ⟨c7plane, none⟩ 'x' (1, 0)).plane.get (1, 0) = .ok 'x' := by
  refine ⟨?_, ?_⟩
  · exact ((C7_plane_bounds_direct_raises_charAt_drops ⟨c7plane, none⟩ (5, 0) 'x').1
      (by decide)).2
  · exact ((C7_plane_bounds_direct_raises_charAt_drops ⟨c7plane, none⟩ (1, 0) 'x').2
      (by decide)).2.1

/-- **C10** (error_handling): reading an in-bounds, never-written (or
deleted) cell yields EMPTY rather than raising; reading outside the
plane rectangle raises IndexError — reads are bounds-checked exactly
like writes. -/
theorem C10_plane_reads_bounds_checked_default_empty
    (d : CharPlaneData) (p : V2I) :
    (d.inBounds p → gridLookup d.grid p = none → d.get p = .ok EMPTY) ∧
    (¬ d.inBounds p → d.get p = .error "IndexError: Text position out of range") ∧
    (∀ c, d.inBounds p → (d.grid.map Prod.fst).Nodup →
        gridLookup d.grid p = some c →
        ∃ d2, d.del p = .ok d2 ∧ d2.get p = .ok EMPTY) := by
  refine ⟨?_, ?_, ?_⟩
  · intro h hl
    simp [CharPlaneData.get, h, hl]
  · intro h
    simp [CharPlaneData.get, h]
  · intro c h hnd hl
    refine ⟨{ d with grid := gridRemove d.grid p }, ?_, ?_⟩
    · simp [CharPlaneData.del, hl]
    · have hb : CharPlaneData.inBounds { d with grid := gridRemove d.grid p } p := h
      simp [CharPlaneData.get, hb, gridLookup_remove_self d.grid p hnd]

theorem C10_witness :
    CharPlaneData.get { width := 3, height := 2, grid := [] } (1, 1) = .ok EMPTY ∧
    CharPlaneData.get { width := 3, height := 2, grid := [] } (3, 0)
      = .error "IndexError: Text position out of range" := by
  refine ⟨?_, ?_⟩
  · exact (C10_plane_reads_bounds_checked_default_empty
      { width := 3, height := 2, grid := [] } (1, 1)).1 (by decide) rfl
  · exact (C10_plane_reads_bounds_checked_default_empty
      { width := 3, height := 2, grid := [] } (3, 0)).2.1 (by decide)

/-- **C9** (algebraic_relational): feeding markup incrementally
(`MLTokenizer(a)` then `update(b)`) and parsing yields exactly the
parse of `MLTokenizer(a + b)`: parse depends only on the accumulated raw
text, and updating is pure concatenation. -/
theorem C9_tokenizer_update_is_concatenation (a b : String) :
    ((mlTokenizerInit a).update b).parse = (mlTokenizerInit (a ++ b)).parse := by
  have h : ((mlTokenizerInit a).update b) = mlTokenizerInit (a ++ b) := by
    simp [mlTokenizerInit, MLTokenizer.update]
  rw [h]

/-- **C2 counterexample**: a StyledSequence with no SpecialMarks,
rendered once on a fresh plane, IS retained in `writtings` and IS
re-rendered by the next `update()` tick — contradicting the claim that
it is discarded after iteration and not replayed. -/
theorem C2_counterexample :
    let styled : StyledRef := { id := 0, hasSpecialMarks := false }
    let t1 := renderStyledSequence {} styled
    styled.hasSpecialMarks = false ∧ t1.writtings = [styled]
      ∧ (planeUpdate t1).2 = [styled] := by
  decide

/-- **C2 amended**: `render_styled_sequence` retains every styled
sequence (deduplicated by identity) regardless of SpecialMarks, and
`update()` re-renders exactly the retained writings while bumping the
tick.  The hypothesis is the plane invariant that every indexed sequence
is in the writings list (both are only ever extended together). -/
theorem C2_amended_every_rendered_sequence_retained
    (t : WritState) (styled : StyledRef)
    (hinv : ∀ s, s ∈ t.writtingsIndex → s ∈ t.writtings) :
    styled ∈ (renderStyledSequence t styled).writtings ∧
    (planeUpdate t).2 = t.writtings ∧
    (planeUpdate t).1.ticks = t.ticks + 1 := by
  refine ⟨?_, rfl, rfl⟩
  unfold renderStyledSequence
  by_cases h : styled ∈ t.writtingsIndex
  · simpa [h] using hinv styled h
  · simp [h]

theorem C2_witness :
    ({ id := 7, hasSpecialMarks := true } : StyledRef)
      ∈ (renderStyledSequence {} { id := 7, hasSpecialMarks := true }).writtings := by
  exact (C2_amended_every_rendered_sequence_retained {}
    { id := 7, hasSpecialMarks := true } (by intro s hs; simp at hs)).1

/-- **C4** (frame_effect): `prepare` returns a derived copy and leaves
the parent MarkMap untouched — its absolute data, relative data,
special-mark set and tick are those of the parent before the call — even
though the copy has SpecialMarks concretized and edge-relative marks
resolved into its own data.  `prepareTracked` writes through to the
parent exactly when the mutated dict is still shared by the shallow
copy, so the first conjunct fails on any reordering that mutates a
still-shared store. -/
theorem C4_prepare_leaves_parent_unchanged
    (m : MarkMap) (seq : SeqData) (tick : Nat) (txt : String) :
    (prepareTracked m seq tick txt).parent = m ∧
    (prepareTracked m seq tick txt).inst.data
        = concretizeRelData m.relativeData m.textPlane m.data ∧
    (prepareTracked m seq tick txt).inst.relativeData = m.relativeData ∧
    (prepareTracked m seq tick txt).inst.special = m.special ++ seq.special ∧
    (prepareTracked m seq tick txt).inst.concreteSpecial
        = concretizeSpecialMarks tick txt.length (m.special ++ seq.special) ∧
    (prepareTracked m seq tick txt).inst.tick = tick ∧
    (prepareTracked m seq tick txt).inst.isRenderingCopy = true :=
  ⟨rfl, rfl, rfl, rfl, rfl, rfl, rfl⟩

theorem C6_counterexample :
    ((markMapPrepare (markMapSetSpecial {} c6mark) {} 0 "ab").concreteSpecial.map
        Prod.fst = [SIdx.seq 0]) ∧
    ((markMapPrepare (markMapSetSpecial {} c6mark) {} 2 "ab").concreteSpecial.map
        Prod.fst = [SIdx.seq 0]) ∧
    (0 : Nat) ≠ 2 ∧ 1 < "ab".length := by
  refine ⟨rfl, rfl, by decide, by decide⟩

/-- **C6 amended**: a `tick % len` SpecialMark concretizes to different
positions at two ticks exactly when the ticks differ MODULO the text
length; in particular any two distinct ticks within one period (for
example consecutive ticks when `len > 1`) give different positions. -/
theorem C6_amended_mod_special_mark_positions
    (mk : Mark) (txt : String) (t1 t2 : Nat) (hlen : 1 < txt.length)
    (hmod : t1 % txt.length ≠ t2 % txt.length) :
    ((markMapPrepare (markMapSetSpecial {} ⟨mk, fun t l => .seq ((t % l : Nat) : Int)⟩)
        {} t1 txt).concreteSpecial.map Prod.fst
      = [SIdx.seq ((t1 % txt.length : Nat) : Int)]) ∧
    ((markMapPrepare (markMapSetSpecial {} ⟨mk, fun t l => .seq ((t % l : Nat) : Int)⟩)
        {} t2 txt).concreteSpecial.map Prod.fst
      = [SIdx.seq ((t2 % txt.length : Nat) : Int)]) ∧
    SIdx.seq ((t1 % txt.length : Nat) : Int)
      ≠ SIdx.seq ((t2 % txt.length : Nat) : Int) := by
  refine ⟨rfl, rfl, ?_⟩
  simp only [ne_eq, SIdx.seq.injEq]
  omega

theorem C6_witness :
    ((markMapPrepare (markMapSetSpecial {}
          ⟨{}, fun t l => .seq ((t % l : Nat) : Int)⟩) {} 0 "ab").concreteSpecial.map
        Prod.fst = [SIdx.seq 0]) ∧
    ((markMapPrepare (markMapSetSpecial {}
          ⟨{}, fun t l => .seq ((t % l : Nat) : Int)⟩) {} 1 "ab").concreteSpecial.map
        Prod.fst = [SIdx.seq 1]) := by
  have h := C6_amended_mod_special_mark_positions {} "ab" 0 1 (by decide) (by decide)
  exact ⟨h.1, h.2.1⟩

/-- **C5** (functional_correctness): a Mark stored at an edge-relative
coordinate is resolved by `prepare()` at the concrete position computed
from the plane size CURRENT at that call, and lands at no other
position — in particular never at the position the old size would have
given, when the two differ. -/
theorem C5_relative_mark_resolves_at_current_size
    (nk : InKey) (entry : Entry) (seq : SeqData) (tick : Nat) (txt : String)
    (s1 s2 : V2I)
    (hne : (getRelativeVariants nk s2).v0 ≠ (getRelativeVariants nk s1).v0) :
    alLookup (markMapPrepare { relativeData := [(nk, entry)], textPlane := some s2 }
        seq tick txt).data (getRelativeVariants nk s2).v0 = some entry ∧
    alLookup (markMapPrepare { relativeData := [(nk, entry)], textPlane := some s2 }
        seq tick txt).data (getRelativeVariants nk s1).v0 = none := by
  have hdata :
      (markMapPrepare { relativeData := [(nk, entry)], textPlane := some s2 }
          seq tick txt).data
        = concretizeRelData [(nk, entry)] (some s2) [] := rfl
  rw [hdata]
  constructor
  · simp [concretizeRelData, alSet, alLookup]
  · simp only [concretizeRelData, List.foldl_cons, List.foldl_nil, alLookup,
      alSet]
    simp [hne]

theorem C5_witness :
    alLookup (markMapPrepare
        { relativeData := [(((.iRel ⟨true, -1⟩ : InComp), (.iInt 0 : InComp)),
            [({} : Mark)])],
          textPlane := some (8, 3) } {} 0 "").data (7, 0) = some [{}] ∧
    alLookup (markMapPrepare
        { relativeData := [(((.iRel ⟨true, -1⟩ : InComp), (.iInt 0 : InComp)),
            [({} : Mark)])],
          textPlane := some (8, 3) } {} 0 "").data (4, 0) = none := by
  have h := C5_relative_mark_resolves_at_current_size
    ((.iRel ⟨true, -1⟩ : InComp), (.iInt 0 : InComp)) [{}] {} 0 "" (5, 3) (8, 3)
    (by decide)
  exact ⟨h.1, h.2⟩

/-! #### Association-list lemmas for C8 -/
theorem alPop_fst {α β : Type} [DecidableEq α] (l : List (α × β)) (a : α) :
    (alPop l a).1 = alLookup l a := by
  induction l with
  | nil => rfl
  | cons hd tl ih =>
    obtain ⟨k, v⟩ := hd
    by_cases h : k = a <;> simp [alPop, alLookup, h, ih]

theorem alPop_snd_sublist {α β : Type} [DecidableEq α] (l : List (α × β)) (a : α) :
    (alPop l a).2.Sublist l := by
  induction l with
  | nil => simp [alPop]
  | cons hd tl ih =>
    obtain ⟨k, v⟩ := hd
    by_cases h : k = a
    · simp only [alPop, if_pos h]
      exact List.sublist_cons_self _ _
    · simp only [alPop, if_neg h]
      exact List.Sublist.cons₂ (k, v) ih

theorem alLookup_pop_self {α β : Type} [DecidableEq α] (l : List (α × β)) (a : α)
    (h : (l.map Prod.fst).Nodup) : alLookup (alPop l a).2 a = none := by
  induction l with
  | nil => rfl
  | cons hd tl ih =>
    obtain ⟨k, v⟩ := hd
    simp only [List.map_cons, List.nodup_cons] at h
    by_cases hk : k = a
    · subst hk
      simp only [alPop, if_pos rfl]
      clear ih
      induction tl with
      | nil => rfl
      | cons hd2 tl2 ih2 =>
        obtain ⟨k2, v2⟩ := hd2
        simp only [List.map_cons, List.mem_cons, not_or] at h
        have : k2 ≠ k := fun hh => h.1.1 hh.symm
        simp only [alLookup, if_neg this]
        exact ih2 ⟨h.1.2, (List.nodup_cons.mp h.2).2⟩
    · simp only [alPop, if_neg hk, alLookup, if_neg hk]
      exact ih h.2

theorem alLookup_pop_ne {α β : Type} [DecidableEq α] (l : List (α × β)) (a b : α)
    (h : b ≠ a) : alLookup (alPop l a).2 b = alLookup l b := by
  induction l with
  | nil => rfl
  | cons hd tl ih =>
    obtain ⟨k, v⟩ := hd
    by_cases hk : k = a
    · subst hk
      have : k ≠ b := fun hh => h (hh.symm)
      simp [alPop, alLookup, this]
    · by_cases hb : k = b <;> simp [alPop, alLookup, hk, hb, h, ih]

theorem alLookup_mem {α β : Type} [DecidableEq α] {l : List (α × β)} {a : α}
    {e : β} (h : alLookup l a = some e) : (a, e) ∈ l := by
  induction l with
  | nil => simp [alLookup] at h
  | cons hd tl ih =>
    obtain ⟨k, v⟩ := hd
    by_cases hk : k = a
    · subst hk
      simp [alLookup] at h
      simp [h]
    · simp only [alLookup, if_neg hk] at h
      simp [ih h]

theorem alPop_keys_nodup {α β : Type} [DecidableEq α] (l : List (α × β)) (a : α)
    (h : (l.map Prod.fst).Nodup) : ((alPop l a).2.map Prod.fst).Nodup :=
  ((alPop_snd_sublist l a).map Prod.fst).nodup h

theorem C8_counterexample :
    (markMapIterKeys c8map).length = 2 ∧
    markMapLen c8map = 2 ∧
    (markMapIterKeys c8map).map (fun k => (getRelativeVariants k (2, 1)).v0)
      = [(1, 0), (1, 0)] ∧
    (markMapIterKeys c8map).get? 0 ≠ (markMapIterKeys c8map).get? 1 := by
  decide

/-- The three far-edge spellings always carry at least one
`RelativeMarkIndex` component, in a fixed shape per variant. -/
theorem variants_shapes (pos : InKey) (size : V2I) :
    (∃ a b, (getRelativeVariants pos size).v1 = (.iRel a, .iInt b)) ∧
    (∃ a b, (getRelativeVariants pos size).v2 = (.iInt a, .iRel b)) ∧
    (∃ a b, (getRelativeVariants pos size).v3 = (.iRel a, .iRel b)) :=
  ⟨⟨_, _, rfl⟩, ⟨_, _, rfl⟩, ⟨_, _, rfl⟩⟩

/-- The equation `__delitem__` satisfies once the plane is fixed. -/
theorem markMapDelItem_eq (m : MarkMap) (size : V2I) (index : InKey)
    (hplane : m.textPlane = some size) :
    markMapDelItem m index =
      (if (!((alPop m.data (getRelativeVariants index size).v0).1.getD []).isEmpty)
          || (!((alPop m.relativeData
              (.iInt (getRelativeVariants index size).v0.1,
               .iInt (getRelativeVariants index size).v0.2)).1.getD []).isEmpty)
          || (!((alPop (alPop m.relativeData
              (.iInt (getRelativeVariants index size).v0.1,
               .iInt (getRelativeVariants index size).v0.2)).2
              (getRelativeVariants index size).v1).1.getD []).isEmpty)
          || (!((alPop (alPop (alPop m.relativeData
              (.iInt (getRelativeVariants index size).v0.1,
               .iInt (getRelativeVariants index size).v0.2)).2
              (getRelativeVariants index size).v1).2
              (getRelativeVariants index size).v2).1.getD []).isEmpty)
          || (!((alPop (alPop (alPop (alPop m.relativeData
              (.iInt (getRelativeVariants index size).v0.1,
               .iInt (getRelativeVariants index size).v0.2)).2
              (getRelativeVariants index size).v1).2
              (getRelativeVariants index size).v2).2
              (getRelativeVariants index size).v3).1.getD []).isEmpty) then
        Except.ok { m with
          data := (alPop m.data (getRelativeVariants index size).v0).2,
          relativeData := (alPop (alPop (alPop (alPop m.relativeData
              (.iInt (getRelativeVariants index size).v0.1,
               .iInt (getRelativeVariants index size).v0.2)).2
              (getRelativeVariants index size).v1).2
              (getRelativeVariants index size).v2).2
              (getRelativeVariants index size).v3).2 }
      else Except.error MErr.keyError) := by
  unfold markMapDelItem
  rw [hplane]

/-- **C8 amended**: deletion treats the up-to-four equivalent spellings
of a coordinate as one logical entry — every stored spelling is removed,
other absolute entries are untouched, and KeyError is raised exactly
when no spelling is stored (given well-formed maps: non-empty cells, no
duplicate keys).  Iteration, however, yields one entry PER STORED
SPELLING: its length is `len(data) + len(relative_data)`, so a
coordinate stored under two spellings appears twice. -/
theorem C8_amended_deletion_merges_spellings
    (m : MarkMap) (size : V2I) (index : InKey)
    (hplane : m.textPlane = some size)
    (hwfD : ∀ pe ∈ m.data, pe.2 ≠ ([] : Entry))
    (hwfR : ∀ ke ∈ m.relativeData, ke.2 ≠ ([] : Entry))
    (hndD : (m.data.map Prod.fst).Nodup)
    (hndR : (m.relativeData.map Prod.fst).Nodup) :
    (markMapDelItem m index = .error .keyError ↔
      (alLookup m.data (getRelativeVariants index size).v0 = none
        ∧ alLookup m.relativeData
            (.iInt (getRelativeVariants index size).v0.1,
             .iInt (getRelativeVariants index size).v0.2) = none
        ∧ alLookup m.relativeData (getRelativeVariants index size).v1 = none
        ∧ alLookup m.relativeData (getRelativeVariants index size).v2 = none
        ∧ alLookup m.relativeData (getRelativeVariants index size).v3 = none)) ∧
    (∀ m2, markMapDelItem m index = .ok m2 →
      (alLookup m2.data (getRelativeVariants index size).v0 = none
        ∧ alLookup m2.relativeData
            (.iInt (getRelativeVariants index size).v0.1,
             .iInt (getRelativeVariants index size).v0.2) = none
        ∧ alLookup m2.relativeData (getRelativeVariants index size).v1 = none
        ∧ alLookup m2.relativeData (getRelativeVariants index size).v2 = none
        ∧ alLookup m2.relativeData (getRelativeVariants index size).v3 = none)
      ∧ (∀ p, p ≠ (getRelativeVariants index size).v0 →
          alLookup m2.data p = alLookup m.data p)) ∧
    (markMapIterKeys m).length = markMapLen m := by
  have hV : ∀ o : Option Entry,
      (∀ e, o = some e → e ≠ []) → ((!(o.getD []).isEmpty) = true ↔ o ≠ none) := by
    intro o ho
    cases o with
    | none => simp
    | some e =>
      have := ho e rfl
      simp [List.isEmpty_iff, this]
  obtain ⟨⟨a1, b1, hs1⟩, ⟨a2, b2, hs2⟩, ⟨a3, b3, hs3⟩⟩ := variants_shapes index size
  -- shorthands
  set vs := getRelativeVariants index size with hvs
  set k0 : InKey := (.iInt vs.v0.1, .iInt vs.v0.2) with hk0
  -- pairwise distinctness of the four relative-store keys
  have hd01 : vs.v1 ≠ k0 := by rw [hs1, hk0]; intro h; simpa using congrArg Prod.fst h
  have hd02 : vs.v2 ≠ k0 := by rw [hs2, hk0]; intro h; simpa using congrArg Prod.snd h
  have hd03 : vs.v3 ≠ k0 := by rw [hs3, hk0]; intro h; simpa using congrArg Prod.fst h
  have hd12 : vs.v2 ≠ vs.v1 := by
    rw [hs1, hs2]; intro h; simpa using congrArg Prod.fst h
  have hd13 : vs.v3 ≠ vs.v1 := by
    rw [hs1, hs3]; intro h; simpa using congrArg Prod.snd h
  have hd23 : vs.v3 ≠ vs.v2 := by
    rw [hs2, hs3]; intro h; simpa using congrArg Prod.fst h
  -- values of the five pops
  have e0 : (alPop m.data vs.v0).1 = alLookup m.data vs.v0 := alPop_fst _ _
  have r0 : (alPop m.relativeData k0).1 = alLookup m.relativeData k0 := alPop_fst _ _
  have r1 : (alPop (alPop m.relativeData k0).2 vs.v1).1
      = alLookup m.relativeData vs.v1 := by
    rw [alPop_fst, alLookup_pop_ne _ _ _ hd01]
  have r2 : (alPop (alPop (alPop m.relativeData k0).2 vs.v1).2 vs.v2).1
      = alLookup m.relativeData vs.v2 := by
    rw [alPop_fst, alLookup_pop_ne _ _ _ hd12, alLookup_pop_ne _ _ _ hd02]
  have r3 : (alPop (alPop (alPop (alPop m.relativeData k0).2 vs.v1).2 vs.v2).2
        vs.v3).1 = alLookup m.relativeData vs.v3 := by
    rw [alPop_fst, alLookup_pop_ne _ _ _ hd23, alLookup_pop_ne _ _ _ hd13,
      alLookup_pop_ne _ _ _ hd03]
  have hwf0 : ∀ e, alLookup m.data vs.v0 = some e → e ≠ [] := fun _ he =>
    hwfD _ (alLookup_mem he)
  have hwfk0 : ∀ e, alLookup m.relativeData k0 = some e → e ≠ [] := fun _ he =>
    hwfR _ (alLookup_mem he)
  have hwf1 : ∀ e, alLookup m.relativeData vs.v1 = some e → e ≠ [] := fun _ he =>
    hwfR _ (alLookup_mem he)
  have hwf2 : ∀ e, alLookup m.relativeData vs.v2 = some e → e ≠ [] := fun _ he =>
    hwfR _ (alLookup_mem he)
  have hwf3 : ∀ e, alLookup m.relativeData vs.v3 = some e → e ≠ [] := fun _ he =>
    hwfR _ (alLookup_mem he)
  have hdel := markMapDelItem_eq m size index hplane
  rw [← hvs, ← hk0] at hdel
  rw [e0, r0, r1, r2, r3] at hdel
  refine ⟨?_, ?_, by simp [markMapIterKeys, markMapLen]⟩
  · -- KeyError exactly when every spelling is absent
    rw [hdel]
    by_cases c :
        ((!((alLookup m.data vs.v0).getD []).isEmpty)
          || (!((alLookup m.relativeData k0).getD []).isEmpty)
          || (!((alLookup m.relativeData vs.v1).getD []).isEmpty)
          || (!((alLookup m.relativeData vs.v2).getD []).isEmpty)
          || (!((alLookup m.relativeData vs.v3).getD []).isEmpty)) = true
    · rw [if_pos c]
      simp only [Bool.or_eq_true] at c
      constructor
      · intro h; cases h
      · intro ⟨h1, h2, h3, h4, h5⟩
        rcases c with ((((c | c) | c) | c) | c)
        · exact absurd ((hV _ hwf0).mp c) (by simp [h1])
        · exact absurd ((hV _ hwfk0).mp c) (by simp [h2])
        · exact absurd ((hV _ hwf1).mp c) (by simp [h3])
        · exact absurd ((hV _ hwf2).mp c) (by simp [h4])
        · exact absurd ((hV _ hwf3).mp c) (by simp [h5])
    · rw [if_neg c]
      simp only [Bool.or_eq_true, not_or] at c
      obtain ⟨⟨⟨⟨c1, c2⟩, c3⟩, c4⟩, c5⟩ := c
      have n1 : alLookup m.data vs.v0 = none := by
        by_contra h; exact c1 ((hV _ hwf0).mpr h)
      have n2 : alLookup m.relativeData k0 = none := by
        by_contra h; exact c2 ((hV _ hwfk0).mpr h)
      have n3 : alLookup m.relativeData vs.v1 = none := by
        by_contra h; exact c3 ((hV _ hwf1).mpr h)
      have n4 : alLookup m.relativeData vs.v2 = none := by
        by_contra h; exact c4 ((hV _ hwf2).mpr h)
      have n5 : alLookup m.relativeData vs.v3 = none := by
        by_contra h; exact c5 ((hV _ hwf3).mpr h)
      simp [n1, n2, n3, n4, n5]
  · -- a successful delete removes every spelling and no other absolute entry
    intro m2 hm2
    rw [hdel] at hm2
    by_cases c :
        ((!((alLookup m.data vs.v0).getD []).isEmpty)
          || (!((alLookup m.relativeData k0).getD []).isEmpty)
          || (!((alLookup m.relativeData vs.v1).getD []).isEmpty)
          || (!((alLookup m.relativeData vs.v2).getD []).isEmpty)
          || (!((alLookup m.relativeData vs.v3).getD []).isEmpty)) = true
    · rw [if_pos c] at hm2
      simp only [Except.ok.injEq] at hm2
      have hdata : m2.data = (alPop m.data vs.v0).2 := by rw [← hm2]
      have hrel : m2.relativeData
          = (alPop (alPop (alPop (alPop m.relativeData k0).2 vs.v1).2 vs.v2).2
              vs.v3).2 := by rw [← hm2]
      have hnd1 := alPop_keys_nodup m.relativeData k0 hndR
      have hnd2 := alPop_keys_nodup _ vs.v1 hnd1
      have hnd3 := alPop_keys_nodup _ vs.v2 hnd2
      refine ⟨⟨?_, ?_, ?_, ?_, ?_⟩, ?_⟩
      · rw [hdata]; exact alLookup_pop_self m.data vs.v0 hndD
      · rw [hrel, alLookup_pop_ne _ _ _ (Ne.symm hd03),
          alLookup_pop_ne _ _ _ (Ne.symm hd02), alLookup_pop_ne _ _ _ (Ne.symm hd01)]
        exact alLookup_pop_self m.relativeData k0 hndR
      · rw [hrel, alLookup_pop_ne _ _ _ (Ne.symm hd13),
          alLookup_pop_ne _ _ _ (Ne.symm hd12)]
        exact alLookup_pop_self _ vs.v1 hnd1
      · rw [hrel, alLookup_pop_ne _ _ _ (Ne.symm hd23)]
        exact alLookup_pop_self _ vs.v2 hnd2
      · rw [hrel]
        exact alLookup_pop_self _ vs.v3 hnd3
      · intro p hp
        rw [hdata]
        exact alLookup_pop_ne m.data vs.v0 p hp
    · rw [if_neg c] at hm2
      cases hm2

theorem C8_witness :
    ∃ m2, markMapDelItem c8map ((.iInt 1 : InComp), (.iInt 0 : InComp)) = .ok m2
      ∧ alLookup m2.data ((1 : Int), (0 : Int)) = none
      ∧ alLookup m2.relativeData ((.iRel ⟨true, -1⟩ : InComp), (.iInt 0 : InComp))
          = none := by
  have h := C8_amended_deletion_merges_spellings c8map (2, 1)
    ((.iInt 1 : InComp), (.iInt 0 : InComp)) (by decide)
    (by decide) (by decide) (by decide) (by decide)
  have hok : markMapDelItem c8map ((.iInt 1 : InComp), (.iInt 0 : InComp))
      = .ok { c8map with data := [], relativeData := [] } := by rfl
  refine ⟨{ c8map with data := [], relativeData := [] }, hok, ?_, ?_⟩
  · exact ((h.2.1 _ hok).1).1
  · have := ((h.2.1 _ hok).1).2.1
    exact this

theorem contextPush_pop_one_empty (k : String) (o : Origin) (ctx : Ctx) (cm : Cm)
    (h : cm (seqAttrRename k) = []) :
    contextPush [] [k] o ctx cm = .ok (ctx, cm) := by
  simp [contextPush, popStep, writeBack, h, pure, Except.pure, bind, Except.bind]

theorem contextPush_pop_one_ne (k : String) (o : Origin) (ctx : Ctx) (cm : Cm)
    (h : cm (seqAttrRename k) ≠ []) :
    contextPush [] [k] o ctx cm =
      .ok
        ((match removeFirstOrigin o (cm (seqAttrRename k)) with
          | [] => ctx
          | top :: _ => ctxSet ctx (seqAttrRename k) top.1),
         cmUpdate cm (seqAttrRename k)
           (removeFirstOrigin o (cm (seqAttrRename k)))) := by
  simp only [contextPush, List.foldl_cons, List.foldl_nil, List.foldlM_nil,
    pure, Except.pure, bind, Except.bind]
  simp [popStep, writeBack, h, addChanged, cmUpdate]

/-- **C1** (functional_correctness): a Mark's `pop_attributes` removes,
from the named attribute's private stack, the topmost entry whose
recorded origin equals this Mark's own origin — not necessarily the
current top (the matching entry may sit below entries of other origins)
— leaving every other attribute's stack untouched; the new top of the
stack is then written back into the live Context, and when the popped
entry was the only one above the seeded original entry, the written-back
value is the seeded default.  The spec's crossing-tags example
`"[color:blue] X [background:red] Y [/color] Z [/background]"` renders
without raising, with the foreground reverting to the default from the
character right after `[/color]` even though `[/background]` closes
later (and the background staying red meanwhile). -/
theorem C1_pop_attributes_by_origin :
    (∀ (ctx : Ctx) (cm : Cm) (k : String) (o : Origin),
      ∃ ctx2 cm2, contextPush [] [k] o ctx cm = .ok (ctx2, cm2)
        ∧ cm2 (seqAttrRename k) = removeFirstOrigin o (cm (seqAttrRename k))
        ∧ (∀ k', k' ≠ seqAttrRename k → cm2 k' = cm k')
        ∧ (∀ v rest, removeFirstOrigin o (cm (seqAttrRename k)) = v :: rest →
            cm (seqAttrRename k) ≠ [] →
            ctxLookup ctx2 (seqAttrRename k) = some v.1)) ∧
    (∀ (pre post : Stack) (v : Value × Origin) (o : Origin),
      v.2 = o → (∀ e ∈ pre, e.2 ≠ o) →
      removeFirstOrigin o (pre ++ v :: post) = pre ++ post) ∧
    (∀ (ctx : Ctx) (cm : Cm) (k : String) (o : Origin) (d v : Value),
      cm (seqAttrRename k) = [(v, o), (d, .original)] →
      ∃ ctx2 cm2, contextPush [] [k] o ctx cm = .ok (ctx2, cm2)
        ∧ cm2 (seqAttrRename k) = [(d, .original)]
        ∧ ctxLookup ctx2 (seqAttrRename k) = some d) ∧
    (c1ExampleRun.map (fun l => l.map (fun t => ctxLookup t.2.1 "color"))
      = .ok [some (.colorV "blue"), some (.colorV "blue"), some (.colorV "blue"),
             some (.colorV "blue"), some (.colorV "blue"), some (.colorV "blue"),
             some .defaultFG, some .defaultFG, some .defaultFG]) ∧
    (c1ExampleRun.map (fun l => l.map (fun t => ctxLookup t.2.1 "background"))
      = .ok [some .defaultBG, some .defaultBG, some .defaultBG,
             some (.colorV "red"), some (.colorV "red"), some (.colorV "red"),
             some (.colorV "red"), some (.colorV "red"), some (.colorV "red")]) := by
  refine ⟨?_, ?_, ?_, by rfl, by rfl⟩
  · intro ctx cm k o
    by_cases h : cm (seqAttrRename k) = []
    · refine ⟨ctx, cm, contextPush_pop_one_empty k o ctx cm h, by rw [h]; rfl,
        fun _ _ => rfl, ?_⟩
      intro v rest _ hne
      exact absurd h hne
    · refine ⟨_, _, contextPush_pop_one_ne k o ctx cm h, by simp [cmUpdate], ?_, ?_⟩
      · intro k' hk'
        simp [cmUpdate, hk']
      · intro v rest hvr _
        rw [hvr]
        exact ctxLookup_set ctx (seqAttrRename k) v.1
  · intro pre post v o hv hpre
    induction pre with
    | nil => simp [removeFirstOrigin, hv]
    | cons e rest ih =>
      have he : e.2 ≠ o := hpre e (by simp)
      simp only [List.cons_append, removeFirstOrigin, if_neg he]
      simp [ih (fun x hx => hpre x (by simp [hx]))]
  · intro ctx cm k o d v hstack
    have h : cm (seqAttrRename k) ≠ [] := by rw [hstack]; simp
    have hrm : removeFirstOrigin o (cm (seqAttrRename k)) = [(d, .original)] := by
      rw [hstack]
      simp [removeFirstOrigin]
    refine ⟨_, _, contextPush_pop_one_ne k o ctx cm h, by simp [cmUpdate, hrm], ?_⟩
    rw [hrm]
    exact ctxLookup_set ctx (seqAttrRename k) d

theorem C1_witness :
    removeFirstOrigin .sequence
        [(Value.colorV "bg", .plane), (Value.colorV "blue", .sequence),
         (Value.defaultFG, .original)]
      = [(Value.colorV "bg", .plane), (Value.defaultFG, .original)] := by
  exact C1_pop_attributes_by_origin.2.1 [(Value.colorV "bg", .plane)]
    [(Value.defaultFG, .original)] (Value.colorV "blue", .sequence) .sequence rfl
    (by intro e he; simp at he; simp [he])

theorem markMapGetData_shape (m : MarkMap) (idx : InKey) :
    markMapGetData m idx = .error .keyError
      ∨ ∃ e, markMapGetData m idx = .ok e := by
  unfold markMapGetData
  repeat' split
  all_goals first
    | exact Or.inl rfl
    | exact Or.inr ⟨_, rfl⟩

theorem markMapGetMerge_shape (m : MarkMap) (idx : InKey) (sz : V2I) :
    markMapGetMerge m idx sz = .error .keyError
      ∨ ∃ e, markMapGetMerge m idx sz = .ok e := by
  unfold markMapGetMerge
  by_cases h :
      ([ alLookup m.data (getRelativeVariants idx sz).v0,
         alLookup m.relativeData
           (.iInt (getRelativeVariants idx sz).v0.1,
            .iInt (getRelativeVariants idx sz).v0.2),
         alLookup m.relativeData (getRelativeVariants idx sz).v1,
         alLookup m.relativeData (getRelativeVariants idx sz).v2,
         alLookup m.relativeData (getRelativeVariants idx sz).v3
       ] : List (Option Entry)).foldl (fun acc o => acc ++ o.getD []) [] = []
  · exact Or.inl (if_pos h)
  · exact Or.inr ⟨_, if_neg h⟩

theorem markMapGetItem_plane (m : MarkMap) (sz : V2I)
    (hp : m.textPlane = some sz) (idx : InKey) :
    markMapGetItem m idx =
      if m.isRenderingCopy then
        markMapGetData m
          (if indexIsRelative idx then
            (.iInt (getRelativeVariants idx sz).v0.1,
             .iInt (getRelativeVariants idx sz).v0.2)
           else idx)
      else markMapGetMerge m idx sz := by
  unfold markMapGetItem
  rw [hp]

theorem markMapGetItem_no_attrError (m : MarkMap) (sz : V2I)
    (hp : m.textPlane = some sz) (idx : InKey) :
    markMapGetItem m idx = .error .keyError
      ∨ ∃ e, markMapGetItem m idx = .ok e := by
  rw [markMapGetItem_plane m sz hp idx]
  by_cases hc : m.isRenderingCopy = true
  · simpa only [if_pos hc] using markMapGetData_shape m _
  · simpa only [if_neg hc] using markMapGetMerge_shape m idx sz

theorem markMapGet_ok (m : MarkMap) (sz : V2I) (hp : m.textPlane = some sz)
    (idx : InKey) : ∃ e, markMapGet m idx = .ok e := by
  rcases markMapGetItem_no_attrError m sz hp idx with h | ⟨e, h⟩
  · exact ⟨[], by simp [markMapGet, h]⟩
  · exact ⟨e, by simp [markMapGet, h]⟩

theorem getFull_ok (m : MarkMap) (sz : V2I) (hp : m.textPlane = some sz)
    (j : Nat) (p : V2I) : getFull m j p = .ok (getFullT m j p) := by
  obtain ⟨e, he⟩ := markMapGet_ok m sz hp (.iInt p.1, .iInt p.2)
  unfold getFullT getFull
  rw [he]

theorem foldlM_ok {α β : Type} (f : β → α → Except String β) (g : β → α → β)
    (l : List α) (h : ∀ b a, a ∈ l → f b a = .ok (g b a)) (init : β) :
    l.foldlM f init = .ok (l.foldl g init) := by
  induction l generalizing init with
  | nil => rfl
  | cons a rest ih =>
    have ha := h init a (by simp)
    simp only [List.foldlM_cons, ha, List.foldl_cons]
    have : ∀ b x, x ∈ rest → f b x = .ok (g b x) := fun b x hx =>
      h b x (by simp [hx])
    simpa [bind, Except.bind] using ih this (g init a)

theorem contextPush_ok (attrs : List (String × Value)) (pops : List String)
    (o : Origin) (ctx : Ctx) (cm : Cm)
    (hs : ∀ kv ∈ attrs, isSeqAttr kv.1 = false) :
    contextPush attrs pops o ctx cm = .ok (contextPushCore attrs pops o ctx cm) := by
  unfold contextPush contextPushCore
  have := foldlM_ok (pushStepM o) (pushStepCore o) attrs
    (fun b a ha => by simp [pushStepM, hs a ha, pure, Except.pure])
    (pops.foldl (popStep o) (cm, []))
  simp only [this, bind, Except.bind, pure, Except.pure]

theorem applyMark_ok (ctx : Ctx) (cm : Cm) (pos : V2I) (mo : Mark × Origin)
    (h : ∀ kv ∈ mo.1.attributes, isSeqAttr kv.1 = false) :
    applyMark ctx cm pos mo = .ok (applyMarkCore (ctx, cm, pos) mo) := by
  obtain ⟨mk, o⟩ := mo
  unfold applyMark applyMarkCore
  by_cases hg : mk.attributes ≠ [] ∨ mk.popAttributes ≠ []
  · simp only [if_pos hg, contextPush_ok mk.attributes mk.popAttributes o ctx cm h]
    simp [markMove, bind, Except.bind, pure, Except.pure]
  · simp only [if_neg hg]
    simp [markMove, bind, Except.bind, pure, Except.pure]

theorem removeFirstOrigin_nomatch (o : Origin) (s : Stack)
    (h : ∀ p ∈ s, p.2 ≠ o) : removeFirstOrigin o s = s := by
  induction s with
  | nil => rfl
  | cons e rest ih =>
    have he : e.2 ≠ o := h e (by simp)
    simp only [removeFirstOrigin, if_neg he]
    rw [ih (fun p hp => h p (by simp [hp]))]

theorem removeFirstOrigin_append_match (o : Origin) (x y : Stack)
    (h : ∃ p ∈ x, p.2 = o) :
    removeFirstOrigin o (x ++ y) = removeFirstOrigin o x ++ y := by
  induction x with
  | nil => obtain ⟨p, hp, _⟩ := h; simp at hp
  | cons e rest ih =>
    by_cases he : e.2 = o
    · simp [removeFirstOrigin, if_pos he]
    · obtain ⟨p, hp, hpo⟩ := h
      rcases List.mem_cons.mp hp with hp | hp
      · exact absurd (hp ▸ hpo) he
      · simp only [List.cons_append, removeFirstOrigin, if_neg he, List.append_eq]
        rw [ih ⟨p, hp, hpo⟩]

theorem removeFirstOrigin_append_nomatch (o : Origin) (x y : Stack)
    (h : ∀ p ∈ x, p.2 ≠ o) :
    removeFirstOrigin o (x ++ y) = x ++ removeFirstOrigin o y := by
  induction x with
  | nil => rfl
  | cons e rest ih =>
    have he : e.2 ≠ o := h e (by simp)
    simp only [List.cons_append, removeFirstOrigin, if_neg he, List.append_eq]
    rw [ih (fun p hp => h p (by simp [hp]))]

theorem removeFirstOrigin_append_inert (o : Origin) (x y : Stack)
    (h : ∀ p ∈ y, p.2 ≠ o) :
    removeFirstOrigin o (x ++ y) = removeFirstOrigin o x ++ y := by
  by_cases hm : ∃ p ∈ x, p.2 = o
  · exact removeFirstOrigin_append_match o x y hm
  · push_neg at hm
    rw [removeFirstOrigin_append_nomatch o x y hm,
        removeFirstOrigin_nomatch o x hm, removeFirstOrigin_nomatch o y h]

theorem removeFirstOrigin_sublist (o : Origin) (s : Stack) :
    (removeFirstOrigin o s).Sublist s := by
  induction s with
  | nil => exact List.Sublist.refl []
  | cons e rest ih =>
    by_cases he : e.2 = o
    · simp only [removeFirstOrigin, if_pos he]
      exact List.sublist_cons_self e rest
    · simp only [removeFirstOrigin, if_neg he]
      exact List.Sublist.cons₂ e ih

theorem pushesFold_append (o : Origin) (vs : List Value) (x y : Stack) :
    pushesFold o vs (x ++ y) = pushesFold o vs x ++ y := by
  induction vs generalizing x with
  | nil => rfl
  | cons v rest ih =>
    simp only [pushesFold, List.foldl_cons]
    exact ih ((v, o) :: x)

theorem pushesFold_shape (o : Origin) (vs : List Value) (st : Stack)
    (h : vs ≠ []) :
    ∃ v t, pushesFold o vs st = (v, o) :: t ∧ (∀ st2, ∃ t2, pushesFold o vs st2 = (v, o) :: t2) := by
  induction vs generalizing st with
  | nil => exact absurd rfl h
  | cons a rest ih =>
    by_cases hr : rest = []
    · subst hr
      exact ⟨a, st, rfl, fun st2 => ⟨st2, rfl⟩⟩
    · obtain ⟨v, t, ht, hall⟩ := ih ((a, o) :: st) hr
      refine ⟨v, t, ht, fun st2 => ?_⟩
      obtain ⟨t2, ht2⟩ := hall ((a, o) :: st2)
      exact ⟨t2, ht2⟩

theorem wOr_assoc (a b c : Option Value) : wOr (wOr a b) c = wOr a (wOr b c) := by
  cases a <;> rfl

theorem wOr_none_right (a : Option Value) : wOr a none = a := by
  cases a <;> rfl

theorem wOr_self_absorb (a b : Option Value) : wOr a (wOr a b) = wOr a b := by
  cases a <;> rfl

theorem kStep_fst (sw : Stack × Option Value) (e : KEv) :
    (kStep sw e).1 = kStack1 sw.1 e := rfl

theorem kRun_fst (es : List KEv) (sw : Stack × Option Value) :
    (kRun es sw).1 = es.foldl kStack1 sw.1 := by
  induction es generalizing sw with
  | nil => rfl
  | cons e rest ih =>
    simp only [kRun, List.foldl_cons] at *
    rw [ih (kStep sw e), kStep_fst]

theorem kStep_eq (st : Stack) (w : Option Value) (e : KEv) :
    kStep (st, w) e = (kStack1 st e, wOr (kDelta st e) w) := by
  unfold kStep kDelta wOr
  by_cases ht : (e.pop && !st.isEmpty) || !e.pushes.isEmpty
  · simp only [if_pos ht]
    cases hs : kStack1 st e <;> simp
  · simp only [if_neg ht]

theorem kRun_w_absorb (es : List KEv) (st : Stack) (w : Option Value) :
    (kRun es (st, w)).2 = wOr (kRun es (st, none)).2 w := by
  induction es generalizing st w with
  | nil => rfl
  | cons e rest ih =>
    simp only [kRun, List.foldl_cons] at *
    rw [kStep_eq st w e, kStep_eq st none e, wOr_none_right,
        ih (kStack1 st e) (wOr (kDelta st e) w), ih (kStack1 st e) (kDelta st e),
        wOr_assoc]

theorem kRun_append (xs ys : List KEv) (sw : Stack × Option Value) :
    kRun (xs ++ ys) sw = kRun ys (kRun xs sw) := by
  simp [kRun, List.foldl_append]

theorem kStack1_append_inert (e : KEv) (P S0 : Stack)
    (hS0 : ∀ p ∈ S0, p.2 ≠ e.orig) :
    kStack1 (P ++ S0) e = kStack1 P e ++ S0 := by
  unfold kStack1
  by_cases hp : e.pop
  · rw [if_pos hp, if_pos hp, removeFirstOrigin_append_inert _ _ _ hS0,
        pushesFold_append]
  · rw [if_neg hp, if_neg hp, pushesFold_append]

theorem kStack1_junk (e : KEv) (P R S0 : Stack)
    (hS0 : ∀ p ∈ S0, p.2 ≠ e.orig) :
    ∃ R2, R2.Sublist R ∧
      kStack1 (P ++ (R ++ S0)) e = kStack1 P e ++ (R2 ++ S0) := by
  unfold kStack1
  by_cases hp : e.pop
  · by_cases hm : ∃ p ∈ P, p.2 = e.orig
    · refine ⟨R, List.Sublist.refl R, ?_⟩
      rw [if_pos hp, if_pos hp, removeFirstOrigin_append_match _ _ _ hm,
          pushesFold_append]
    · push_neg at hm
      refine ⟨removeFirstOrigin e.orig R, removeFirstOrigin_sublist _ R, ?_⟩
      rw [if_pos hp, if_pos hp, removeFirstOrigin_append_nomatch _ _ _ hm,
          removeFirstOrigin_append_inert _ _ _ hS0,
          removeFirstOrigin_nomatch e.orig P hm, pushesFold_append]
  · refine ⟨R, List.Sublist.refl R, ?_⟩
    rw [if_neg hp, if_neg hp, pushesFold_append]

theorem kStackRun_append_inert (es : List KEv) (P S0 : Stack)
    (hS0 : ∀ p ∈ S0, p.2 = Origin.original)
    (ho : ∀ e ∈ es, e.orig ≠ Origin.original) :
    es.foldl kStack1 (P ++ S0) = es.foldl kStack1 P ++ S0 := by
  revert ho
  induction es generalizing P with
  | nil => intro ho; rfl
  | cons e rest ih =>
    intro ho
    have hoe : e.orig ≠ Origin.original := ho e (by simp)
    have hin : ∀ p ∈ S0, p.2 ≠ e.orig := fun p hp => by
      rw [hS0 p hp]; exact fun hh => hoe hh.symm
    rw [List.foldl_cons, List.foldl_cons, kStack1_append_inert e P S0 hin,
        ih (kStack1 P e) (fun x hx => ho x (by simp [hx]))]

theorem kStackRun_junk (es : List KEv) (P R S0 : Stack)
    (hS0 : ∀ p ∈ S0, p.2 = Origin.original)
    (ho : ∀ e ∈ es, e.orig ≠ Origin.original) :
    ∃ R2, R2.Sublist R ∧
      es.foldl kStack1 (P ++ (R ++ S0)) = es.foldl kStack1 P ++ (R2 ++ S0) := by
  revert ho
  induction es generalizing P R with
  | nil => exact fun _ => ⟨R, List.Sublist.refl R, rfl⟩
  | cons e rest ih =>
    intro ho
    have hoe : e.orig ≠ Origin.original := ho e (by simp)
    have hin : ∀ p ∈ S0, p.2 ≠ e.orig := fun p hp => by
      rw [hS0 p hp]; exact fun hh => hoe hh.symm
    obtain ⟨R1, hR1, hstep⟩ := kStack1_junk e P R S0 hin
    obtain ⟨R2, hR2, hrest⟩ :=
      ih (kStack1 P e) R1 (fun x hx => ho x (by simp [hx]))
    refine ⟨R2, hR2.trans hR1, ?_⟩
    rw [List.foldl_cons, List.foldl_cons, hstep, hrest]

theorem kStackRun_poponly_nil (es : List KEv)
    (hpop : ∀ e ∈ es, e.pushes = []) :
    es.foldl kStack1 [] = [] := by
  induction es with
  | nil => rfl
  | cons e rest ih =>
    have h1 : kStack1 [] e = [] := by
      unfold kStack1
      rw [hpop e (by simp)]
      by_cases hp : e.pop
      · rw [if_pos hp]; rfl
      · rw [if_neg hp]; rfl
    rw [List.foldl_cons, h1, ih (fun x hx => hpop x (by simp [hx]))]

theorem exists_last_push_split (l : List KEv) :
    (∀ e ∈ l, e.pushes = []) ∨
      ∃ l1 e l2, l = l1 ++ e :: l2 ∧ e.pushes ≠ [] ∧ ∀ x ∈ l2, x.pushes = [] := by
  induction l with
  | nil => exact Or.inl (by simp)
  | cons a l ih =>
    rcases ih with h | ⟨l1, e, l2, heq, he, hl2⟩
    · by_cases ha : a.pushes = []
      · refine Or.inl ?_
        intro x hx
        rcases List.mem_cons.mp hx with h1 | h1
        · rw [h1]; exact ha
        · exact h x h1
      · exact Or.inr ⟨[], a, l, rfl, ha, h⟩
    · exact Or.inr ⟨a :: l1, e, l2, by rw [heq]; rfl, he, hl2⟩

theorem kStack1_inactive (e : KEv) (hpush : e.pushes = []) (hp : e.pop = false)
    (X : Stack) : kStack1 X e = X := by
  unfold kStack1
  rw [hpush, hp]
  rfl

theorem kStack1_poponly (e : KEv) (hpush : e.pushes = []) (hp : e.pop = true)
    (X : Stack) : kStack1 X e = removeFirstOrigin e.orig X := by
  unfold kStack1
  rw [hpush, if_pos hp]
  rfl

theorem kStep_inactive (e : KEv) (hpush : e.pushes = []) (hp : e.pop = false)
    (X : Stack) (w : Option Value) : kStep (X, w) e = (X, w) := by
  simp only [kStep]
  rw [kStack1_inactive e hpush hp, hpush, hp]
  simp

theorem kStep_poponly (e : KEv) (hpush : e.pushes = []) (hp : e.pop = true)
    (X : Stack) (w : Option Value) :
    kStep (X, w) e = (removeFirstOrigin e.orig X,
      if X.isEmpty then w
      else
        match removeFirstOrigin e.orig X with
        | [] => w
        | t :: _ => some t.1) := by
  simp only [kStep]
  rw [kStack1_poponly e hpush hp, hpush, hp]
  cases hX : X.isEmpty <;> simp [hX]

theorem kRun_poponly_w (l : List KEv) (P R S0 : Stack) (w : Option Value)
    (hS0 : ∀ p ∈ S0, p.2 = Origin.original)
    (ho : ∀ e ∈ l, e.orig ≠ Origin.original)
    (hpop : ∀ e ∈ l, e.pushes = [])
    (hinv : R ≠ [] → l.foldl kStack1 P ≠ []) :
    (kRun l (P ++ (R ++ S0), w)).2 = (kRun l (P ++ S0, w)).2 := by
  revert ho hpop hinv
  induction l generalizing P R w with
  | nil => intro _ _ _; rfl
  | cons e rest ih =>
    intro ho hpop hinv
    have hoe := ho e (List.mem_cons_self e rest)
    have hpe := hpop e (List.mem_cons_self e rest)
    have horest : ∀ x ∈ rest, x.orig ≠ Origin.original :=
      fun x hx => ho x (List.mem_cons_of_mem e hx)
    have hprest : ∀ x ∈ rest, x.pushes = [] :=
      fun x hx => hpop x (List.mem_cons_of_mem e hx)
    have hin : ∀ p ∈ S0, p.2 ≠ e.orig := fun p hp => by
      rw [hS0 p hp]; exact fun hh => hoe hh.symm
    by_cases hP : P = []
    · subst hP
      have hR : R = [] := by
        by_contra hR
        exact hinv hR (kStackRun_poponly_nil (e :: rest) hpop)
      subst hR
      rfl
    · obtain ⟨a, P', haP⟩ : ∃ a P', P = a :: P' := by
        cases P with
        | nil => exact absurd rfl hP
        | cons a P' => exact ⟨a, P', rfl⟩
      by_cases hpe2 : e.pop = true
      · -- a firing pop on both sides
        simp only [kRun, List.foldl_cons]
        rw [kStep_poponly e hpe hpe2 (P ++ (R ++ S0)) w,
            kStep_poponly e hpe hpe2 (P ++ S0) w]
        have hAne : (P ++ S0).isEmpty = false := by rw [haP]; rfl
        have hBne : (P ++ (R ++ S0)).isEmpty = false := by rw [haP]; rfl
        rw [hAne, hBne]
        have hrfA : removeFirstOrigin e.orig (P ++ S0)
            = removeFirstOrigin e.orig P ++ S0 :=
          removeFirstOrigin_append_inert _ _ _ hin
        by_cases hm : ∃ p ∈ P, p.2 = e.orig
        · have hrfB : removeFirstOrigin e.orig (P ++ (R ++ S0))
              = removeFirstOrigin e.orig P ++ (R ++ S0) :=
            removeFirstOrigin_append_match _ _ _ hm
          by_cases hrf : removeFirstOrigin e.orig P = []
          · have hch : (e :: rest).foldl kStack1 P = [] := by
              rw [List.foldl_cons, kStack1_poponly e hpe hpe2, hrf,
                  kStackRun_poponly_nil rest hprest]
            have hR : R = [] := by
              by_contra hR
              exact hinv hR hch
            subst hR
            rw [hrfA, hrfB, hrf]
            rfl
          · obtain ⟨b, t', hbt⟩ : ∃ b t',
                removeFirstOrigin e.orig P = b :: t' := by
              cases hc : removeFirstOrigin e.orig P with
              | nil => exact absurd hc hrf
              | cons b t' => exact ⟨b, t', rfl⟩
            rw [hrfA, hrfB, hbt]
            show (kRun rest ((b :: t') ++ (R ++ S0), some b.1)).2
              = (kRun rest ((b :: t') ++ S0, some b.1)).2
            refine ih (b :: t') R (some b.1) horest hprest ?_
            intro hR
            have := hinv hR
            rwa [List.foldl_cons, kStack1_poponly e hpe hpe2, hbt] at this
        · push_neg at hm
          have hrfP : removeFirstOrigin e.orig P = P :=
            removeFirstOrigin_nomatch _ _ hm
          have hrfB : removeFirstOrigin e.orig (P ++ (R ++ S0))
              = P ++ (removeFirstOrigin e.orig R ++ S0) := by
            rw [removeFirstOrigin_append_nomatch _ _ _ hm,
                removeFirstOrigin_append_inert _ _ _ hin]
          rw [hrfA, hrfB, hrfP, haP]
          show (kRun rest ((a :: P') ++ (removeFirstOrigin e.orig R ++ S0),
              some a.1)).2
            = (kRun rest ((a :: P') ++ S0, some a.1)).2
          refine ih (a :: P') (removeFirstOrigin e.orig R) (some a.1)
            horest hprest ?_
          intro hR2
          have hR : R ≠ [] := by
            intro h
            subst h
            exact hR2 rfl
          have := hinv hR
          rwa [List.foldl_cons, kStack1_poponly e hpe hpe2, hrfP, haP] at this
      · -- the event does not touch this key
        have hb : e.pop = false := by
          cases hc : e.pop with
          | false => rfl
          | true => exact absurd hc hpe2
        simp only [kRun, List.foldl_cons]
        rw [kStep_inactive e hpe hb (P ++ (R ++ S0)) w,
            kStep_inactive e hpe hb (P ++ S0) w]
        refine ih P R w horest hprest ?_
        intro hR
        have := hinv hR
        rwa [List.foldl_cons, kStack1_inactive e hpe hb] at this

/-- The heart of the amended idempotence claim: per attribute, replaying
the identical event sequence on top of the stack the first replay leaves
behind ends on the same last-written value, provided the initial stack
only holds seeded "original" entries and no event carries the "original"
origin. -/
theorem kRun_w_idem (es : List KEv) (S0 : Stack)
    (hS0 : ∀ p ∈ S0, p.2 = Origin.original)
    (ho : ∀ e ∈ es, e.orig ≠ Origin.original) :
    (kRun es ((kRun es (S0, none)).1, none)).2 = (kRun es (S0, none)).2 := by
  have hT : (kRun es (S0, none)).1 = es.foldl kStack1 [] ++ S0 := by
    rw [kRun_fst]
    have := kStackRun_append_inert es [] S0 hS0 ho
    simpa using this
  rcases exists_last_push_split es with hall | ⟨l1, e, l2, heq, hepush, hl2⟩
  · rw [hT, kStackRun_poponly_nil es hall, List.nil_append]
  · subst heq
    have hol1 : ∀ x ∈ l1, x.orig ≠ Origin.original :=
      fun x hx => ho x (by simp [hx])
    have hol2 : ∀ x ∈ l2, x.orig ≠ Origin.original :=
      fun x hx => ho x (by simp [hx])
    have hoe : e.orig ≠ Origin.original := ho e (by simp)
    have hin : ∀ p ∈ S0, p.2 ≠ e.orig := fun p hp => by
      rw [hS0 p hp]; exact fun hh => hoe hh.symm
    -- names for the push-prefixes
    set PF := (l1 ++ e :: l2).foldl kStack1 [] with hPF
    set P1 := l1.foldl kStack1 [] with hP1
    have hPF2 : PF = l2.foldl kStack1 (kStack1 P1 e) := by
      rw [hPF, List.foldl_append, List.foldl_cons, hP1]
    -- run 1 through l1
    have hA1 : (kRun l1 (S0, none)).1 = P1 ++ S0 := by
      rw [kRun_fst]
      have := kStackRun_append_inert l1 [] S0 hS0 hol1
      simpa [hP1] using this
    -- run 2 through l1
    obtain ⟨R1, hR1sub, hB1s⟩ := kStackRun_junk l1 [] PF S0 hS0 hol1
    have hB1 : (kRun l1 (PF ++ S0, none)).1 = P1 ++ (R1 ++ S0) := by
      rw [kRun_fst]
      have := hB1s
      simpa [hP1] using this
    -- the push event writes the same value on both sides
    obtain ⟨v, t0, _, hall2⟩ :=
      pushesFold_shape e.orig e.pushes [] hepush
    have hpushne : (!e.pushes.isEmpty) = true := by
      cases hc : e.pushes with
      | nil => exact absurd hc hepush
      | cons x xs => rfl
    have hstep : ∀ (X : Stack) (w : Option Value),
        kStep (X, w) e = (kStack1 X e, some v) := by
      intro X w
      obtain ⟨t2, ht2⟩ :=
        hall2 (if e.pop then removeFirstOrigin e.orig X else X)
      have hks : kStack1 X e = (v, e.orig) :: t2 := ht2
      simp only [kStep]
      rw [hks]
      simp [hpushne]
    -- decompose both full runs at the push event
    have hsplit : ∀ sw, kRun (l1 ++ e :: l2) sw
        = kRun l2 (kStep (kRun l1 sw) e) := by
      intro sw
      rw [kRun_append]
      rfl
    rw [hT, hsplit, hsplit]
    have hBpair : kStep (kRun l1 (PF ++ S0, none)) e
        = (kStack1 (P1 ++ (R1 ++ S0)) e, some v) := by
      rw [show kRun l1 (PF ++ S0, none)
          = ((kRun l1 (PF ++ S0, none)).1, (kRun l1 (PF ++ S0, none)).2)
          from rfl, hB1]
      exact hstep _ _
    have hApair : kStep (kRun l1 (S0, none)) e
        = (kStack1 (P1 ++ S0) e, some v) := by
      rw [show kRun l1 (S0, none)
          = ((kRun l1 (S0, none)).1, (kRun l1 (S0, none)).2) from rfl, hA1]
      exact hstep _ _
    rw [hBpair, hApair]
    obtain ⟨R2, hR2sub, hj⟩ := kStack1_junk e P1 R1 S0 hin
    rw [hj, kStack1_append_inert e P1 S0 hin]
    refine kRun_poponly_w l2 (kStack1 P1 e) R2 S0 (some v) hS0 hol2 hl2 ?_
    intro hR2
    have hR1 : R1 ≠ [] := by
      intro h
      subst h
      exact hR2 (List.sublist_nil.mp hR2sub)
    have hPFne : PF ≠ [] := by
      intro h
      rw [h] at hR1sub
      exact hR1 (List.sublist_nil.mp hR1sub)
    rw [← hPF2]
    exact hPFne

theorem addChanged_mem (cs : List String) (r k : String) :
    k ∈ addChanged cs r ↔ k ∈ cs ∨ k = r := by
  unfold addChanged
  by_cases h : r ∈ cs
  · rw [if_pos h]
    constructor
    · exact Or.inl
    · rintro (hk | hk)
      · exact hk
      · rw [hk]; exact h
  · rw [if_neg h]
    simp

theorem popStep_cm (o : Origin) (acc : Cm × List String) (p k : String) :
    (popStep o acc p).1 k
      = if k = seqAttrRename p then removeFirstOrigin o (acc.1 k)
        else acc.1 k := by
  simp only [popStep]
  by_cases hs : acc.1 (seqAttrRename p) = []
  · rw [if_pos hs]
    by_cases hk : k = seqAttrRename p
    · rw [if_pos hk, hk, hs]
      rfl
    · rw [if_neg hk]
  · rw [if_neg hs]
    by_cases hk : k = seqAttrRename p
    · rw [if_pos hk, hk]
      simp [cmUpdate]
    · rw [if_neg hk]
      simp [cmUpdate, hk]

theorem popStep_changed (o : Origin) (acc : Cm × List String) (p k : String) :
    k ∈ (popStep o acc p).2
      ↔ k ∈ acc.2 ∨ (k = seqAttrRename p ∧ acc.1 (seqAttrRename p) ≠ []) := by
  simp only [popStep]
  by_cases hs : acc.1 (seqAttrRename p) = []
  · rw [if_pos hs]
    simp [hs]
  · rw [if_neg hs]
    rw [addChanged_mem]
    simp [hs]

theorem popsFold_cm (pops : List String) (o : Origin) (cm : Cm)
    (cs : List String) (k : String)
    (hnd : (pops.map seqAttrRename).Nodup) :
    (pops.foldl (popStep o) (cm, cs)).1 k
      = if k ∈ pops.map seqAttrRename then removeFirstOrigin o (cm k)
        else cm k := by
  induction pops generalizing cm cs with
  | nil => simp
  | cons p rest ih =>
    simp only [List.map_cons, List.nodup_cons] at hnd
    obtain ⟨hnd1, hnd2⟩ := hnd
    simp only [List.map_cons]
    rw [List.foldl_cons,
        show popStep o (cm, cs) p
          = ((popStep o (cm, cs) p).1, (popStep o (cm, cs) p).2) from rfl,
        ih (popStep o (cm, cs) p).1 (popStep o (cm, cs) p).2 hnd2]
    by_cases hk : k = seqAttrRename p
    · have hmem : k ∈ seqAttrRename p :: rest.map seqAttrRename := by
        rw [hk]; exact List.mem_cons_self _ _
      have hnr : ¬ k ∈ rest.map seqAttrRename := by
        rw [hk]; exact hnd1
      rw [if_pos hmem, if_neg hnr, popStep_cm, if_pos hk]
    · have hiff : k ∈ seqAttrRename p :: rest.map seqAttrRename
          ↔ k ∈ rest.map seqAttrRename := by
        simp [hk]
      rw [popStep_cm, if_neg hk]
      by_cases hm : k ∈ rest.map seqAttrRename
      · rw [if_pos hm, if_pos (hiff.mpr hm)]
      · rw [if_neg hm, if_neg (fun hh => hm (hiff.mp hh))]

theorem popsFold_changed (pops : List String) (o : Origin) (cm : Cm)
    (cs : List String) (k : String)
    (hnd : (pops.map seqAttrRename).Nodup) :
    k ∈ (pops.foldl (popStep o) (cm, cs)).2
      ↔ k ∈ cs ∨ (k ∈ pops.map seqAttrRename ∧ cm k ≠ []) := by
  induction pops generalizing cm cs with
  | nil => simp
  | cons p rest ih =>
    simp only [List.map_cons, List.nodup_cons] at hnd
    obtain ⟨hnd1, hnd2⟩ := hnd
    simp only [List.map_cons]
    rw [List.foldl_cons,
        show popStep o (cm, cs) p
          = ((popStep o (cm, cs) p).1, (popStep o (cm, cs) p).2) from rfl,
        ih (popStep o (cm, cs) p).1 (popStep o (cm, cs) p).2 hnd2,
        popStep_changed]
    by_cases hk : k = seqAttrRename p
    · have hnr : ¬ k ∈ rest.map seqAttrRename := by
        rw [hk]; exact hnd1
      subst hk
      simp [hnr]
    · rw [popStep_cm, if_neg hk]
      simp only [List.mem_cons]
      constructor
      · rintro ((h | ⟨h1, h2⟩) | ⟨h1, h2⟩)
        · exact Or.inl h
        · exact absurd h1 hk
        · exact Or.inr ⟨Or.inr h1, h2⟩
      · rintro (h | ⟨h1 | h1, h2⟩)
        · exact Or.inl (Or.inl h)
        · exact absurd h1 hk
        · exact Or.inr ⟨h1, h2⟩

theorem pushStepCore_cm (o : Origin) (acc : Cm × List String)
    (kv : String × Value) (k : String) :
    (pushStepCore o acc kv).1 k
      = if kv.1 == k then (kv.2, o) :: acc.1 k else acc.1 k := by
  simp only [pushStepCore, cmUpdate]
  by_cases hk : k = kv.1
  · subst hk
    simp
  · rw [if_neg hk, if_neg (by simpa using fun hh => hk hh.symm)]

theorem pushStepCore_changed (o : Origin) (acc : Cm × List String)
    (kv : String × Value) (k : String) :
    k ∈ (pushStepCore o acc kv).2 ↔ k ∈ acc.2 ∨ k = kv.1 :=
  addChanged_mem acc.2 kv.1 k

theorem pushFold_cm (attrs : List (String × Value)) (o : Origin) (cm : Cm)
    (cs : List String) (k : String) :
    (attrs.foldl (pushStepCore o) (cm, cs)).1 k
      = pushesFold o (evPushes attrs k) (cm k) := by
  induction attrs generalizing cm cs with
  | nil => rfl
  | cons kv rest ih =>
    rw [List.foldl_cons,
        show pushStepCore o (cm, cs) kv
          = ((pushStepCore o (cm, cs) kv).1, (pushStepCore o (cm, cs) kv).2)
          from rfl,
        ih (pushStepCore o (cm, cs) kv).1 (pushStepCore o (cm, cs) kv).2]
    by_cases hk : kv.1 == k
    · have hev : evPushes (kv :: rest) k = kv.2 :: evPushes rest k := by
        simp [evPushes, List.filter_cons, hk]
      rw [hev, pushStepCore_cm, if_pos hk]
      rfl
    · have hev : evPushes (kv :: rest) k = evPushes rest k := by
        simp only [evPushes, List.filter_cons]
        rw [if_neg (by simpa using hk)]
      rw [hev, pushStepCore_cm, if_neg hk]

theorem pushFold_changed (attrs : List (String × Value)) (o : Origin)
    (cm : Cm) (cs : List String) (k : String) :
    k ∈ (attrs.foldl (pushStepCore o) (cm, cs)).2
      ↔ k ∈ cs ∨ evPushes attrs k ≠ [] := by
  induction attrs generalizing cm cs with
  | nil => simp [evPushes]
  | cons kv rest ih =>
    rw [List.foldl_cons,
        show pushStepCore o (cm, cs) kv
          = ((pushStepCore o (cm, cs) kv).1, (pushStepCore o (cm, cs) kv).2)
          from rfl,
        ih (pushStepCore o (cm, cs) kv).1 (pushStepCore o (cm, cs) kv).2,
        pushStepCore_changed]
    by_cases hk : kv.1 == k
    · have hev : evPushes (kv :: rest) k = kv.2 :: evPushes rest k := by
        simp [evPushes, List.filter_cons, hk]
      have hk1 : kv.1 = k := by simpa using hk
      rw [hev]
      simp [hk1.symm]
    · have hev : evPushes (kv :: rest) k = evPushes rest k := by
        simp only [evPushes, List.filter_cons]
        rw [if_neg (by simpa using hk)]
      have hk3 : ¬ kv.1 = k := by simpa using hk
      have hk2 : ¬ k = kv.1 := fun hh => hk3 hh.symm
      rw [hev]
      simp [hk2]

theorem writeBack_lookup (ctx : Ctx) (cm : Cm) (changed : List String)
    (k : String) :
    ctxLookup (writeBack ctx cm changed) k
      = if k ∈ changed then
          match cm k with
          | [] => ctxLookup ctx k
          | t :: _ => some t.1
        else ctxLookup ctx k := by
  induction changed generalizing ctx with
  | nil => simp [writeBack]
  | cons c rest ih =>
    simp only [writeBack, List.foldl_cons] at *
    rw [ih]
    by_cases hkr : k ∈ rest
    · rw [if_pos hkr, if_pos (List.mem_cons_of_mem c hkr)]
      cases hck : cm k with
      | cons t ts => rfl
      | nil =>
        cases hcc : cm c with
        | nil => rfl
        | cons u us =>
          by_cases hkc : k = c
          · rw [← hkc, hck] at hcc
            simp at hcc
          · exact ctxLookup_set_ne ctx c k u.1 hkc
    · rw [if_neg hkr]
      by_cases hkc : k = c
      · subst hkc
        rw [if_pos (List.mem_cons_self k rest)]
        cases hc : cm k with
        | nil => rfl
        | cons t ts => exact ctxLookup_set ctx k t.1
      · rw [if_neg (by simp [hkc, hkr])]
        cases hc : cm c with
        | nil => rfl
        | cons t ts => exact ctxLookup_set_ne ctx c k t.1 hkc

/-- `_context_push` evolves each attribute independently: its effect on
the stack and the live value of a single key is exactly one step of the
per-key machine. -/
theorem contextPushCore_proj (attrs : List (String × Value))
    (pops : List String) (o : Origin) (ctx : Ctx) (cm : Cm) (k : String)
    (hnd : (pops.map seqAttrRename).Nodup) :
    ((contextPushCore attrs pops o ctx cm).2 k,
      ctxLookup (contextPushCore attrs pops o ctx cm).1 k)
      = kStep (cm k, ctxLookup ctx k)
          ⟨(pops.map seqAttrRename).contains k, evPushes attrs k, o⟩ := by
  have hpe : pops.foldl (popStep o) (cm, [])
      = ((pops.foldl (popStep o) (cm, [])).1,
         (pops.foldl (popStep o) (cm, [])).2) := rfl
  have hstack : (contextPushCore attrs pops o ctx cm).2 k
      = pushesFold o (evPushes attrs k)
          (if k ∈ pops.map seqAttrRename then removeFirstOrigin o (cm k)
           else cm k) := by
    simp only [contextPushCore]
    rw [hpe, pushFold_cm, popsFold_cm pops o cm [] k hnd]
  have hlook : ctxLookup (contextPushCore attrs pops o ctx cm).1 k
      = if (k ∈ pops.map seqAttrRename ∧ cm k ≠ []) ∨ evPushes attrs k ≠ [] then
          match (contextPushCore attrs pops o ctx cm).2 k with
          | [] => ctxLookup ctx k
          | t :: _ => some t.1
        else ctxLookup ctx k := by
    have hchg : k ∈ (attrs.foldl (pushStepCore o)
        (pops.foldl (popStep o) (cm, []))).2
        ↔ ((k ∈ pops.map seqAttrRename ∧ cm k ≠ []) ∨ evPushes attrs k ≠ []) := by
      rw [hpe, pushFold_changed, popsFold_changed pops o cm [] k hnd]
      simp
    simp only [contextPushCore] at *
    rw [writeBack_lookup]
    by_cases hcond :
        (k ∈ pops.map seqAttrRename ∧ cm k ≠ []) ∨ evPushes attrs k ≠ []
    · rw [if_pos (hchg.mpr hcond), if_pos hcond]
    · rw [if_neg (fun hh => hcond (hchg.mp hh)), if_neg hcond]
  rw [Prod.ext_iff]
  by_cases hmem : k ∈ pops.map seqAttrRename
  · have hc : (pops.map seqAttrRename).contains k = true :=
      List.elem_iff.mpr hmem
    constructor
    · rw [hstack, if_pos hmem]
      simp only [kStep, kStack1]
      rw [hc]
      simp
    · rw [hlook, hstack, if_pos hmem]
      simp only [kStep, kStack1]
      rw [hc]
      by_cases hcm : cm k = [] <;> by_cases hev : evPushes attrs k = [] <;>
        simp [hcm, hev, hmem]
  · have hc : (pops.map seqAttrRename).contains k = false := by
      rw [Bool.eq_false_iff]
      exact fun hh => hmem (List.elem_iff.mp hh)
    constructor
    · rw [hstack, if_neg hmem]
      simp only [kStep, kStack1]
      rw [hc]
      simp
    · rw [hlook, hstack, if_neg hmem]
      simp only [kStep, kStack1]
      rw [hc]
      by_cases hcm : cm k = [] <;> by_cases hev : evPushes attrs k = [] <;>
        simp [hcm, hev, hmem]

theorem ctxCmStep_proj (s : Ctx × Cm) (mo : Mark × Origin) (k : String)
    (hnd : (mo.1.popAttributes.map seqAttrRename).Nodup) :
    ((ctxCmStep s mo).2 k, ctxLookup (ctxCmStep s mo).1 k)
      = kStep (s.2 k, ctxLookup s.1 k) (evK mo k) := by
  by_cases hg : mo.1.attributes ≠ [] ∨ mo.1.popAttributes ≠ []
  · simp only [ctxCmStep, if_pos hg]
    exact contextPushCore_proj mo.1.attributes mo.1.popAttributes mo.2
      s.1 s.2 k hnd
  · simp only [ctxCmStep, if_neg hg]
    push_neg at hg
    obtain ⟨ha, hp⟩ := hg
    have he : evK mo k = ⟨false, [], mo.2⟩ := by
      simp [evK, ha, hp, evPushes]
    rw [he, kStep_inactive _ rfl rfl]

theorem ctxCmRun_proj (evs : List (Mark × Origin)) (s : Ctx × Cm) (k : String)
    (hnd : ∀ mo ∈ evs, (mo.1.popAttributes.map seqAttrRename).Nodup) :
    ((ctxCmRun evs s).2 k, ctxLookup (ctxCmRun evs s).1 k)
      = kRun (evs.map (fun mo => evK mo k)) (s.2 k, ctxLookup s.1 k) := by
  induction evs generalizing s with
  | nil => rfl
  | cons mo rest ih =>
    simp only [ctxCmRun, kRun, List.foldl_cons, List.map_cons] at *
    rw [ih (ctxCmStep s mo) (fun x hx => hnd x (List.mem_cons_of_mem mo hx)),
        ← ctxCmStep_proj s mo k (hnd mo (List.mem_cons_self mo rest))]

theorem applyMarkCore_fold (evs : List (Mark × Origin)) (c : Ctx) (cm : Cm)
    (p : V2I) :
    evs.foldl applyMarkCore (c, cm, p)
      = ((ctxCmRun evs (c, cm)).1, (ctxCmRun evs (c, cm)).2,
         evs.foldl (fun q mo => markMove mo.1 q) p) := by
  induction evs generalizing c cm p with
  | nil => rfl
  | cons mo rest ih =>
    simp only [List.foldl_cons, ctxCmRun] at *
    rw [show applyMarkCore (c, cm, p) mo
        = ((ctxCmStep (c, cm) mo).1, (ctxCmStep (c, cm) mo).2, markMove mo.1 p)
        from rfl,
      ih (ctxCmStep (c, cm) mo).1 (ctxCmStep (c, cm) mo).2 (markMove mo.1 p)]

theorem coreStep_eq (static : SStatic) (s : Ctx × Cm × V2I) (j : Nat) :
    coreStep static s j
      = ((ctxCmRun (stepEvs static s.2.2 j) (s.1, s.2.1)).1,
         (ctxCmRun (stepEvs static s.2.2 j) (s.1, s.2.1)).2,
         posStep static s.2.2 j) := by
  unfold coreStep posStep
  exact applyMarkCore_fold (stepEvs static s.2.2 j) s.1 s.2.1 s.2.2

theorem foldl_pair_fst {α β γ : Type} (f : α → γ → α) (g : α → β → γ → β)
    (l : List γ) (a : α) (b : β) :
    (l.foldl (fun p x => (f p.1 x, g p.1 p.2 x)) (a, b)).1 = l.foldl f a := by
  induction l generalizing a b with
  | nil => rfl
  | cons x rest ih => exact ih (f a x) (g a b x)

theorem replayPos_zero (static : SStatic) :
    replayPos static 0 = posStep static static.start 0 := rfl

theorem replayPos_succ (static : SStatic) (i : Nat) :
    replayPos static (i + 1)
      = posStep static (replayPos static i) (i + 1) := by
  unfold replayPos
  rw [List.range_succ, List.foldl_append]
  rfl

theorem replayEvents_zero (static : SStatic) :
    replayEvents static 0 = stepEvs static static.start 0 := rfl

theorem replayEvents_fst (static : SStatic) (i : Nat) :
    ((List.range (i + 1)).foldl
      (fun (a : V2I × List (Mark × Origin)) j =>
        (posStep static a.1 j, a.2 ++ stepEvs static a.1 j))
      (static.start, [])).1 = replayPos static i := by
  unfold replayPos
  exact foldl_pair_fst (posStep static)
    (fun p acc j => acc ++ stepEvs static p j) (List.range (i + 1))
    static.start []

theorem replayEvents_succ (static : SStatic) (i : Nat) :
    replayEvents static (i + 1)
      = replayEvents static i
          ++ stepEvs static (replayPos static i) (i + 1) := by
  unfold replayEvents
  rw [List.range_succ, List.foldl_append]
  show (_, ((List.range (i + 1)).foldl _ (static.start, [])).2
      ++ stepEvs static ((List.range (i + 1)).foldl _ (static.start, [])).1
        (i + 1)).2 = _
  rw [replayEvents_fst]

theorem ctxCmRun_append (a b : List (Mark × Origin)) (s : Ctx × Cm) :
    ctxCmRun (a ++ b) s = ctxCmRun b (ctxCmRun a s) := by
  simp [ctxCmRun, List.foldl_append]

theorem replayCore_zero (static : SStatic) (c : Ctx) (cm : Cm) :
    replayCore static c cm 0 = coreStep static (c, cm, static.start) 0 := rfl

theorem replayCore_succ (static : SStatic) (c : Ctx) (cm : Cm) (i : Nat) :
    replayCore static c cm (i + 1)
      = coreStep static (replayCore static c cm i) (i + 1) := by
  unfold replayCore
  rw [List.range_succ, List.foldl_append]
  rfl

theorem replayCore_split (static : SStatic) (c : Ctx) (cm : Cm) (i : Nat) :
    replayCore static c cm i
      = ((ctxCmRun (replayEvents static i) (c, cm)).1,
         (ctxCmRun (replayEvents static i) (c, cm)).2,
         replayPos static i) := by
  induction i with
  | zero =>
    rw [replayCore_zero, coreStep_eq, replayEvents_zero, replayPos_zero]
  | succ i ih =>
    rw [replayCore_succ, ih, coreStep_eq, replayEvents_succ, ctxCmRun_append,
        replayPos_succ]

/-- Every mark `get_full` returns is tagged "plane" or "sequence", never
the seeding origin "original". -/
theorem getFullT_origin (m : MarkMap) (j : Nat) (p : V2I) :
    ∀ mo ∈ getFullT m j p, mo.2 ≠ Origin.original := by
  intro mo hmo
  unfold getFullT at hmo
  cases h : getFull m j p with
  | error e => rw [h] at hmo; simp at hmo
  | ok l =>
    rw [h] at hmo
    unfold getFull at h
    cases h2 : markMapGet m (.iInt p.1, .iInt p.2) with
    | error e => rw [h2] at h; simp at h
    | ok pm =>
      rw [h2] at h
      simp only [Except.ok.injEq] at h
      subst h
      simp only [List.mem_append, List.mem_map] at hmo
      rcases hmo with ((⟨mk, _, hmk⟩ | ⟨mk, _, hmk⟩) | ⟨mk, _, hmk⟩)
        | ⟨mk, _, hmk⟩ <;> (rw [← hmk]; simp)

theorem replayEvents_origin (static : SStatic) (i : Nat) :
    ∀ mo ∈ replayEvents static i, mo.2 ≠ Origin.original := by
  induction i with
  | zero =>
    rw [replayEvents_zero]
    exact getFullT_origin static.marks 0 static.start
  | succ i ih =>
    rw [replayEvents_succ]
    intro mo hmo
    rcases List.mem_append.mp hmo with h | h
    · exact ih mo h
    · exact getFullT_origin static.marks (i + 1) (replayPos static i) mo h

theorem replayEvents_scalar (static : SStatic) (i : Nat)
    (hsc : ∀ j p, ∀ mo ∈ getFullT static.marks j p, ScalarMark mo.1) :
    ∀ mo ∈ replayEvents static i, ScalarMark mo.1 := by
  induction i with
  | zero =>
    rw [replayEvents_zero]
    exact hsc 0 static.start
  | succ i ih =>
    rw [replayEvents_succ]
    intro mo hmo
    rcases List.mem_append.mp hmo with h | h
    · exact ih mo h
    · exact hsc (i + 1) (replayPos static i) mo h

theorem ctxLookup_updateAll (c d : Ctx) (k : String) :
    ctxLookup (ctxUpdateAll c d) k = wOr (lastVal d k) (ctxLookup c k) := by
  induction d generalizing c with
  | nil => rfl
  | cons kv rest ih =>
    obtain ⟨k1, v1⟩ := kv
    simp only [ctxUpdateAll, List.foldl_cons] at *
    rw [ih (ctxSet c k1 v1)]
    show wOr (lastVal rest k) (ctxLookup (ctxSet c k1 v1) k)
      = wOr (lastVal ((k1, v1) :: rest) k) (ctxLookup c k)
    cases hl : lastVal rest k with
    | some v => simp [wOr, lastVal, hl]
    | none =>
      simp only [wOr, lastVal, hl]
      by_cases hk : k1 = k
      · subst hk
        rw [ctxLookup_set]
        simp
      · rw [ctxLookup_set_ne c k1 k v1 (fun hh => hk hh.symm)]
        simp [hk]

theorem updateAll_lookup_congr (a b d : Ctx) (k : String)
    (h : ctxLookup a k = ctxLookup b k) :
    ctxLookup (ctxUpdateAll a d) k = ctxLookup (ctxUpdateAll b d) k := by
  rw [ctxLookup_updateAll, ctxLookup_updateAll, h]

/-- The idempotence of full replays, on the pure replay function: a
second identical replay, run after resetting the live context but
keeping the dirty stacks, reads back the same context values and ends at
the same cursor.  `hc1` captures that the first replay's starting
context is itself a fixed point of the parent-data reset. -/
theorem replay_idem (static : SStatic) (i : Nat) (c1 : Ctx) (cm0 : Cm)
    (hc1 : ∀ k, ctxLookup (ctxUpdateAll c1 static.parentData) k
      = ctxLookup c1 k)
    (hcm0 : ∀ k, ∀ p ∈ cm0 k, p.2 = Origin.original)
    (hnd : ∀ mo ∈ replayEvents static i,
      (mo.1.popAttributes.map seqAttrRename).Nodup) :
    (∀ k, ctxLookup (replayCore static
        (ctxUpdateAll (replayCore static c1 cm0 i).1 static.parentData)
        (replayCore static c1 cm0 i).2.1 i).1 k
      = ctxLookup (replayCore static c1 cm0 i).1 k)
    ∧ (replayCore static
        (ctxUpdateAll (replayCore static c1 cm0 i).1 static.parentData)
        (replayCore static c1 cm0 i).2.1 i).2.2
      = (replayCore static c1 cm0 i).2.2 := by
  have e1 : (replayCore static c1 cm0 i).1
      = (ctxCmRun (replayEvents static i) (c1, cm0)).1 := by
    rw [replayCore_split]
  have e2 : (replayCore static c1 cm0 i).2.1
      = (ctxCmRun (replayEvents static i) (c1, cm0)).2 := by
    rw [replayCore_split]
  have e3 : (replayCore static c1 cm0 i).2.2 = replayPos static i := by
    rw [replayCore_split]
  constructor
  · intro k
    have horig : ∀ e ∈ (replayEvents static i).map (fun mo => evK mo k),
        e.orig ≠ Origin.original := by
      intro e he
      obtain ⟨mo, hmo, hmoeq⟩ := List.mem_map.mp he
      rw [← hmoeq]
      exact replayEvents_origin static i mo hmo
    -- run-1 projection
    have h1 := ctxCmRun_proj (replayEvents static i) (c1, cm0) k hnd
    have h1s : (ctxCmRun (replayEvents static i) (c1, cm0)).2 k
        = (kRun ((replayEvents static i).map (fun mo => evK mo k))
            (cm0 k, ctxLookup c1 k)).1 := congrArg Prod.fst h1
    have h1w : ctxLookup (ctxCmRun (replayEvents static i) (c1, cm0)).1 k
        = (kRun ((replayEvents static i).map (fun mo => evK mo k))
            (cm0 k, ctxLookup c1 k)).2 := congrArg Prod.snd h1
    -- run-2 projection
    have h2 := ctxCmRun_proj (replayEvents static i)
      (ctxUpdateAll (replayCore static c1 cm0 i).1 static.parentData,
       (replayCore static c1 cm0 i).2.1) k hnd
    have h2w : ctxLookup (ctxCmRun (replayEvents static i)
        (ctxUpdateAll (replayCore static c1 cm0 i).1 static.parentData,
         (replayCore static c1 cm0 i).2.1)).1 k
        = (kRun ((replayEvents static i).map (fun mo => evK mo k))
            ((replayCore static c1 cm0 i).2.1 k,
             ctxLookup (ctxUpdateAll (replayCore static c1 cm0 i).1
               static.parentData) k)).2 := congrArg Prod.snd h2
    -- the second run starts on the stack the first run leaves
    have hstack : (replayCore static c1 cm0 i).2.1 k
        = (kRun ((replayEvents static i).map (fun mo => evK mo k))
            (cm0 k, none)).1 := by
      rw [e2, h1s, kRun_fst, kRun_fst]
    -- goal rewriting
    have f1 : (replayCore static
        (ctxUpdateAll (replayCore static c1 cm0 i).1 static.parentData)
        (replayCore static c1 cm0 i).2.1 i).1
        = (ctxCmRun (replayEvents static i)
            (ctxUpdateAll (replayCore static c1 cm0 i).1 static.parentData,
             (replayCore static c1 cm0 i).2.1)).1 := by
      rw [replayCore_split]
    rw [f1, h2w, hstack, e1, h1w, kRun_w_absorb,
        kRun_w_absorb (((replayEvents static i)).map (fun mo => evK mo k))
          (cm0 k) (ctxLookup c1 k)]
    rw [kRun_w_idem ((replayEvents static i).map (fun mo => evK mo k))
      (cm0 k) (hcm0 k) horig]
    cases hW : (kRun ((replayEvents static i).map (fun mo => evK mo k))
        (cm0 k, none)).2 with
    | some v => rfl
    | none =>
      have hr1 : ctxLookup (ctxCmRun (replayEvents static i) (c1, cm0)).1 k
          = ctxLookup c1 k := by
        rw [h1w, kRun_w_absorb, hW]
        rfl
      simp only [wOr]
      rw [updateAll_lookup_congr (ctxCmRun (replayEvents static i) (c1, cm0)).1
        c1 static.parentData k hr1]
      exact hc1 k
  · have f3 : (replayCore static
        (ctxUpdateAll (replayCore static c1 cm0 i).1 static.parentData)
        (replayCore static c1 cm0 i).2.1 i).2.2 = replayPos static i := by
      rw [replayCore_split]
    rw [f3, e3]

theorem updateAll_idem_lookup (c d : Ctx) (k : String) :
    ctxLookup (ctxUpdateAll (ctxUpdateAll c d) d) k
      = ctxLookup (ctxUpdateAll c d) k := by
  rw [ctxLookup_updateAll (ctxUpdateAll c d) d, ctxLookup_updateAll c d,
      wOr_self_absorb]

theorem cmInit_inert (ctx : Ctx) (k : String) :
    ∀ p ∈ cmInit ctx k, p.2 = Origin.original := by
  intro p hp
  unfold cmInit at hp
  cases h : ctxLookup ctx k with
  | none => rw [h] at hp; simp at hp
  | some v =>
    rw [h] at hp
    simp at hp
    rw [hp]

theorem applyMarksAt_ok (static : SStatic) (sz : V2I)
    (hp : static.marks.textPlane = some sz) (ctx : Ctx) (cm : Cm) (p : V2I)
    (j : Nat)
    (hsc : ∀ mo ∈ getFullT static.marks j p, ScalarMark mo.1) :
    applyMarksAt static ctx cm p j
      = .ok ((getFullT static.marks j p).foldl applyMarkCore (ctx, cm, p)) := by
  unfold applyMarksAt
  rw [getFull_ok static.marks sz hp j p]
  exact foldlM_ok _ applyMarkCore (getFullT static.marks j p)
    (fun b mo hmo => applyMark_ok b.1 b.2.1 b.2.2 mo (hsc mo hmo).1)
    (ctx, cm, p)

theorem processIncr_ok (static : SStatic) (sz : V2I)
    (hp : static.marks.textPlane = some sz) (st : SState) (j : Nat) (p0 : V2I)
    (hp0 : (if st.lastIndex = none then static.start else st.pos) = p0)
    (hsc : ∀ mo ∈ getFullT static.marks j p0, ScalarMark mo.1) :
    processIncr static st j
      = .ok { ctx := ((getFullT static.marks j p0).foldl applyMarkCore
                (st.ctx, st.cm, p0)).1,
              cm := ((getFullT static.marks j p0).foldl applyMarkCore
                (st.ctx, st.cm, p0)).2.1,
              lastIndex := some j,
              pos := ((getFullT static.marks j p0).foldl applyMarkCore
                (st.ctx, st.cm, p0)).2.2 } := by
  unfold processIncr
  rw [hp0]
  simp only [applyMarksAt_ok static sz hp st.ctx st.cm p0 j hsc, bind,
    Except.bind, pure, Except.pure]

theorem processFold_ok (static : SStatic) (sz : V2I)
    (hp : static.marks.textPlane = some sz)
    (hsc : ∀ j p, ∀ mo ∈ getFullT static.marks j p, ScalarMark mo.1)
    (c : Ctx) (cm : Cm) (q : V2I) (i : Nat) :
    (List.range (i + 1)).foldlM (fun s j => processIncr static s j)
        { ctx := c, cm := cm, lastIndex := none, pos := q }
      = .ok { ctx := (replayCore static c cm i).1,
              cm := (replayCore static c cm i).2.1,
              lastIndex := some i,
              pos := (replayCore static c cm i).2.2 } := by
  induction i with
  | zero =>
    show List.foldlM _ _ [0] = _
    simp only [List.foldlM_cons, List.foldlM_nil]
    rw [processIncr_ok static sz hp
      { ctx := c, cm := cm, lastIndex := none, pos := q } 0 static.start
      (by simp) (hsc 0 static.start)]
    simp [bind, Except.bind, pure, Except.pure]
    exact ⟨rfl, rfl, rfl⟩
  | succ i ih =>
    rw [List.range_succ, List.foldlM_append, ih]
    show Except.bind _ _ = _
    simp only [Except.bind]
    simp only [List.foldlM_cons, List.foldlM_nil]
    rw [processIncr_ok static sz hp
      { ctx := (replayCore static c cm i).1,
        cm := (replayCore static c cm i).2.1,
        lastIndex := some i,
        pos := (replayCore static c cm i).2.2 } (i + 1)
      (replayCore static c cm i).2.2 (by simp)
      (hsc (i + 1) (replayCore static c cm i).2.2)]
    simp only [bind, Except.bind, pure, Except.pure]
    rw [replayCore_succ]
    rfl

theorem reprocess_ok (static : SStatic) (sz : V2I)
    (hp : static.marks.textPlane = some sz)
    (hsc : ∀ j p, ∀ mo ∈ getFullT static.marks j p, ScalarMark mo.1)
    (st : SState) (i : Nat) :
    reprocessFromStart static st i
      = .ok { ctx := (replayCore static
                (ctxUpdateAll st.ctx static.parentData) st.cm i).1,
              cm := (replayCore static
                (ctxUpdateAll st.ctx static.parentData) st.cm i).2.1,
              lastIndex := some i,
              pos := (replayCore static
                (ctxUpdateAll st.ctx static.parentData) st.cm i).2.2 } := by
  unfold reprocessFromStart
  exact processFold_ok static sz hp hsc
    (ctxUpdateAll st.ctx static.parentData) st.cm st.pos i

theorem processTo_none_zero (static : SStatic) (st : SState)
    (hli : st.lastIndex = none) :
    processTo static st 0 = processIncr static st 0 := by
  unfold processTo
  rw [hli]
  rfl

theorem processTo_none_pos (static : SStatic) (st : SState) (i : Nat)
    (hli : st.lastIndex = none) (hne : i ≠ 0) :
    processTo static st i = reprocessFromStart static st i := by
  unfold processTo
  rw [hli]
  simp [hne]

theorem processTo_stale (static : SStatic) (st : SState) (i l : Nat)
    (hli : st.lastIndex = some l) (hne : i ≠ l + 1) :
    processTo static st i = reprocessFromStart static st i := by
  unfold processTo
  rw [hli]
  simp [hne]

/-- **C3** counterexample (to the unrestricted claim): after processing
indices 0, 1 and 2 of a sequence whose marks pop the color at 0 and push
colors at 1 and 2, two consecutive `_process_to(0)` calls with no
intervening mutation yield different live color values — the first
replay's pop consumes the color pushed during the forward pass (the
stacks in `locals.context_map` are not reset by `_reprocess_from_start`),
the second replay's pop consumes the color its own predecessor pushed. -/
theorem C3_counterexample :
    c3Probe = .ok (some (Value.colorV "v"), some Value.defaultFG)
      ∧ (some (Value.colorV "v") : Option Value) ≠ some Value.defaultFG := by
  constructor
  · rfl
  · decide

/-- **C3** (algebraic_relational, amended): from the freshly-entered
iteration state of the render path (fresh context reset from the parent
data, stacks seeded at origin "original", nothing processed yet), two
consecutive `_process_to(i)` calls with the same in-range `i` — the
first taking the incremental (i = 0) or full-replay (i > 0) path, the
second always the full-replay path — return states with identical live
Context values, identical cursor position and identical last-processed
index; the hypotheses keep every fetched mark on the scalar
(non-transformer) attribute path of `_context_push` and give the
prepared map an attached plane, the regime where `_process_to` cannot
raise.  From arbitrary later states idempotence fails (see the
counterexample) because the full replay resets the context but not the
private attribute stacks. -/
theorem C3_amended_fresh_process_to_idempotent (static : SStatic) (sz : V2I)
    (i : Nat) (hplane : static.marks.textPlane = some sz)
    (hscalar : ∀ j p, ∀ mo ∈ getFullT static.marks j p, ScalarMark mo.1)
    (hrange : i < static.textLen) :
    ∃ s1 s2,
      processTo static (freshIterState static) i = .ok s1
      ∧ processTo static s1 i = .ok s2
      ∧ (∀ k, ctxLookup s2.ctx k = ctxLookup s1.ctx k)
      ∧ s2.pos = s1.pos
      ∧ s2.lastIndex = s1.lastIndex := by
  have hnd : ∀ mo ∈ replayEvents static i,
      (mo.1.popAttributes.map seqAttrRename).Nodup :=
    fun mo hmo => (replayEvents_scalar static i hscalar mo hmo).2
  have hstale : i ≠ i + 1 := fun h => absurd h.symm (Nat.succ_ne_self i)
  have finish : ∀ c1 : Ctx,
      (∀ k, ctxLookup (ctxUpdateAll c1 static.parentData) k
        = ctxLookup c1 k) →
      processTo static (freshIterState static) i
        = .ok (replayState static c1
            (cmInit (ctxUpdateAll freshContext static.parentData)) i) →
      ∃ s1 s2,
        processTo static (freshIterState static) i = .ok s1
        ∧ processTo static s1 i = .ok s2
        ∧ (∀ k, ctxLookup s2.ctx k = ctxLookup s1.ctx k)
        ∧ s2.pos = s1.pos
        ∧ s2.lastIndex = s1.lastIndex := by
    intro c1 hc1 h1
    refine ⟨replayState static c1
        (cmInit (ctxUpdateAll freshContext static.parentData)) i,
      replayState static
        (ctxUpdateAll (replayState static c1
          (cmInit (ctxUpdateAll freshContext static.parentData)) i).ctx
          static.parentData)
        (replayState static c1
          (cmInit (ctxUpdateAll freshContext static.parentData)) i).cm i,
      h1, ?_, ?_, ?_, ?_⟩
    · rw [processTo_stale static _ i i rfl hstale,
        reprocess_ok static sz hplane hscalar _ i]
      rfl
    · exact (replay_idem static i c1
        (cmInit (ctxUpdateAll freshContext static.parentData)) hc1
        (cmInit_inert (ctxUpdateAll freshContext static.parentData)) hnd).1
    · exact (replay_idem static i c1
        (cmInit (ctxUpdateAll freshContext static.parentData)) hc1
        (cmInit_inert (ctxUpdateAll freshContext static.parentData)) hnd).2
    · rfl
  by_cases hi : i = 0
  · subst hi
    refine finish (ctxUpdateAll freshContext static.parentData)
      (fun k => updateAll_idem_lookup freshContext static.parentData k) ?_
    rw [processTo_none_zero static _ rfl,
      processIncr_ok static sz hplane (freshIterState static) 0 static.start
        (by simp [freshIterState]) (hscalar 0 static.start)]
    rfl
  · refine finish
      (ctxUpdateAll (ctxUpdateAll freshContext static.parentData)
        static.parentData)
      (fun k => updateAll_idem_lookup
        (ctxUpdateAll freshContext static.parentData) static.parentData k) ?_
    rw [processTo_none_pos static _ i rfl hi,
      reprocess_ok static sz hplane hscalar (freshIterState static) i]
    rfl

theorem C3_witness :
    ∃ s1 s2,
      processTo c3wStatic (freshIterState c3wStatic) 1 = .ok s1
      ∧ processTo c3wStatic s1 1 = .ok s2
      ∧ (∀ k, ctxLookup s2.ctx k = ctxLookup s1.ctx k)
      ∧ s2.pos = s1.pos
      ∧ s2.lastIndex = s1.lastIndex :=
  C3_amended_fresh_process_to_idempotent c3wStatic (4, 4) 1 rfl
    (fun j p mo hmo => by
      have hdata : ∀ a b : Int,
          markMapGetData c3wStatic.marks (.iInt a, .iInt b)
            = .error .keyError := fun a b => by rfl
      have hitem : markMapGetItem c3wStatic.marks (.iInt p.1, .iInt p.2)
          = .error .keyError := by
        rw [markMapGetItem_plane c3wStatic.marks ((4 : Int), (4 : Int))
          (by rfl) (.iInt p.1, .iInt p.2),
          show c3wStatic.marks.isRenderingCopy = true from rfl, if_pos rfl]
        by_cases hrel : indexIsRelative (.iInt p.1, .iInt p.2) = true
        · rw [if_pos hrel]
          exact hdata _ _
        · rw [if_neg hrel]
          exact hdata p.1 p.2
      have h0 : getFullT c3wStatic.marks j p = [] := by
        unfold getFullT getFull
        rw [show markMapGet c3wStatic.marks (.iInt p.1, .iInt p.2)
          = .ok [] from by unfold markMapGet; rw [hitem]]
        rfl
      rw [h0] at hmo
      exact absurd hmo (List.not_mem_nil mo))
    (by decide)

end Terminedia

